/-
Verification of the ConversationMemory component of the nft-intelligence-ai
repository.  The source file contains two independent JavaScript
implementations of the class `ConversationMemory`:

  * a "flat-map" implementation keyed by the string `userId + ":" + platform`
    with a history cap of 20 (`maxHistoryPerUser`), and
  * a "nested-map" implementation keyed by `userId` then `platform`, with a
    history cap of 50 (`maxInteractionsPerUser`) and derived rolling
    statistics (`commonTopics`, `preferredAnalysisTypes`, `riskTolerance`).

Both are embedded below as pure state-passing functions.  Conventions of the
embedding:

  * JavaScript `Map` objects (insertion-ordered, unique keys, `set` on an
    existing key keeps its position) are modelled as association lists
    `List (String × α)` with the operations `mapGet`, `mapSet`, `mapDel`,
    `mapHas` below.
  * Timestamps (`new Date().toISOString()` / `Date.now()`) are modelled as a
    `Nat` millisecond clock value passed explicitly to each operation; ISO
    strings compare chronologically exactly as the numbers do.
  * `Array.prototype.sort` with the comparator `(a, b) => b[1] - a[1]` is a
    stable sort (required by ES2019 and implemented by V8's TimSort); it is
    modelled by the stable insertion sort `List.insertionSort` with the
    relation `byCountDesc`.
  * JavaScript numbers that the code divides (`averageQueryLength`, the
    engagement averages, the interval averages) are modelled exactly as `Rat`;
    no claim observes enough precision for binary-float rounding to matter.
  * A JavaScript function with no `return` statement evaluates to `undefined`;
    where a claim is about a returned value this is modelled as
    `none : Option Bool`.
  * All operations are total Lean functions, mirroring the fact that the
    JavaScript operations never throw on any input (the try/catch wrappers in
    the nested-map implementation are dead for the embedded pure code paths).
-/
import Mathlib

set_option maxRecDepth 100000

namespace ConvMem

/-- ASCII lowercasing of a string's characters, modelling
JavaScript `String.prototype.toLowerCase` on the ASCII vocabulary used by the
source (every configured keyword is ASCII). -/
def lowerChars (s : String) : List Char :=
  s.data.map Char.toLower

/-- `leadsIn needle hay`: `needle` is a leading segment of `hay`. -/
def leadsIn : List Char → List Char → Bool
  | [], _ => true
  | _ :: _, [] => false
  | a :: as, b :: bs => a == b && leadsIn as bs

/-- `occursIn needle hay`: `needle` occurs contiguously somewhere in `hay`,
modelling JavaScript `String.prototype.includes`. -/
def occursIn (needle : List Char) : List Char → Bool
  | [] => leadsIn needle []
  | b :: bs => leadsIn needle (b :: bs) || occursIn needle bs

/-- `lowerQuery.includes(term)` as used by the source: the query is lowercased
and the (already lowercase) vocabulary term is searched in it. -/
def queryHasTerm (query : String) (term : String) : Bool :=
  occursIn term.data (lowerChars query)

/-- JavaScript `Map.prototype.get`. -/
def mapGet {α : Type} : List (String × α) → String → Option α
  | [], _ => none
  | p :: ps, k => if p.1 = k then some p.2 else mapGet ps k

/-- JavaScript `Map.prototype.set`: an existing key is updated in place
(keeping its position in insertion order), a new key is appended at the end. -/
def mapSet {α : Type} : List (String × α) → String → α → List (String × α)
  | [], k, v => [(k, v)]
  | p :: ps, k, v => if p.1 = k then (k, v) :: ps else p :: mapSet ps k v

/-- JavaScript `Map.prototype.delete` (the resulting map). -/
def mapDel {α : Type} : List (String × α) → String → List (String × α)
  | [], _ => []
  | p :: ps, k => if p.1 = k then mapDel ps k else p :: mapDel ps k

/-- JavaScript `Map.prototype.has`. -/
def mapHas {α : Type} : List (String × α) → String → Bool
  | [], _ => false
  | p :: ps, k => if p.1 = k then true else mapHas ps k

/-- The keys of an association list, in order. -/
def keysOf {α : Type} (m : List (String × α)) : List String :=
  m.map Prod.fst

/-- JavaScript `arr.slice(-limit)`: the last `limit` elements.  The source
always calls it with a positive literal or a positive default, but
`slice(-0)` would return the whole array, which the `limit = 0` branch
mirrors. -/
def sliceLast {α : Type} (l : List α) (limit : Nat) : List α :=
  if limit = 0 then l else l.drop (l.length - limit)

/-- The optional intent attached to an interaction.  The memory code only
ever stores the intent verbatim and reads `intent.type`; a `null` intent and
an intent object without a `type` field behave identically in every guard
(`intent && intent.type`), so both are `type := none`. -/
structure Intent where
  type : Option String
  confidence : Option Rat
deriving DecidableEq, Repr

/-- A `null` / absent intent. -/
def noIntent : Intent := ⟨none, none⟩

/-- JavaScript truthiness of `intent && intent.type`: the type must be
present and a non-empty string. -/
def truthyType (i : Intent) : Option String :=
  match i.type with
  | some t => if t = "" then none else some t
  | none => none

/-- Increment the count of `k` in an insertion-ordered count map, modelling
`map.set(k, (map.get(k) || 0) + 1)`. -/
def bump (m : List (String × Nat)) (k : String) : List (String × Nat) :=
  mapSet m k ((mapGet m k).getD 0 + 1)

/-- The sort relation of `Array.prototype.sort((a, b) => b[1] - a[1])`:
descending by count. -/
def byCountDesc (a b : String × Nat) : Prop := b.2 ≤ a.2

instance : DecidableRel byCountDesc :=
  fun a b => inferInstanceAs (Decidable (b.2 ≤ a.2))

instance : IsTotal (String × Nat) byCountDesc :=
  ⟨fun a b => Nat.le_total b.2 a.2⟩

instance : IsTrans (String × Nat) byCountDesc :=
  ⟨fun _ _ _ hab hbc => le_trans hbc hab⟩

/-- `Array.from(map.entries()).sort((a, b) => b[1] - a[1])`: a stable sort,
descending by count; ties keep the map's insertion order. -/
def sortByCountDesc (l : List (String × Nat)) : List (String × Nat) :=
  l.insertionSort byCountDesc

/-! ## The nested-map implementation

`this.memory : Map<userId, Map<platform, { interactions, context }>>`,
`maxInteractionsPerUser = 50`, `contextWindowSize = 10`. -/

namespace Nested

/-- One interaction record of the nested-map implementation.  The random
`id` token (`int_<Date.now()>_<random>`) is unique within the process and
never used for ordering; it is modelled by a fresh counter threaded through
the store. -/
structure Interaction where
  timestamp : Nat
  userQuery : String
  aiResponse : String
  intent : Intent
  id : Nat
deriving DecidableEq, Repr

/-- The per-(user, platform) rolling context. -/
structure Ctx where
  totalInteractions : Nat
  lastInteractionTime : Option Nat
  commonTopics : List (String × Nat)
  preferredAnalysisTypes : List (String × Nat)
  riskTolerance : String
deriving DecidableEq, Repr

/-- The context a fresh platform entry is initialised with. -/
def Ctx.empty : Ctx := ⟨0, none, [], [], "unknown"⟩

/-- One per-(user, platform) entry: the bounded log plus its context. -/
structure PlatformMemory where
  interactions : List Interaction
  context : Ctx
deriving DecidableEq, Repr

/-- A fresh platform entry. -/
def PlatformMemory.empty : PlatformMemory := ⟨[], Ctx.empty⟩

/-- The whole store: the nested map plus the interaction-id counter. -/
structure Memory where
  memory : List (String × List (String × PlatformMemory))
  nextId : Nat
deriving DecidableEq, Repr

/-- The store as constructed: empty. -/
def Memory.empty : Memory := ⟨[], 0⟩

def maxInteractionsPerUser : Nat := 50

def contextWindowSize : Nat := 10

/-- NFT collection vocabulary of `extractTopics`. -/
def collections : List String :=
  ["bored ape", "bayc", "cryptopunks", "azuki", "mutant ape",
   "pudgy penguins", "clone x", "moonbirds", "otherdeed", "doodles"]

/-- Analysis-type vocabulary of `extractTopics`. -/
def analysisTypes : List String :=
  ["wallet", "collection", "market", "risk", "fraud", "trading",
   "investment", "portfolio", "trends", "price"]

/-- Blockchain vocabulary of `extractTopics`. -/
def blockchainTerms : List String :=
  ["ethereum", "polygon", "solana", "bitcoin", "defi", "nft",
   "token", "smart contract", "gas", "opensea"]

/-- `extractTopics`: every vocabulary term occurring in the lowercased query,
pushed in vocabulary order (collections, then analysis types, then
blockchain terms). -/
def extractTopics (query : String) : List String :=
  ((collections ++ analysisTypes) ++ blockchainTerms).filter
    (fun t => queryHasTerm query t)

/-- Risk-averse indicator terms of `updateRiskTolerance`. -/
def riskAverseTerms : List String :=
  ["safe", "secure", "low risk", "conservative", "stable"]

/-- Risk-seeking indicator terms of `updateRiskTolerance`. -/
def riskSeekingTerms : List String :=
  ["risky", "high return", "volatile", "speculative", "gamble"]

/-- The score a term list contributes: one point per term occurring in the
query (each `forEach` branch increments at most once per term). -/
def countTerms (terms : List String) (query : String) : Nat :=
  (terms.filter (fun t => queryHasTerm query t)).length

/-- `updateRiskTolerance`: compare the two keyword scores; on a strict win
set the corresponding class, on a tie promote only `unknown` to
`moderate`. -/
def updateRiskTolerance (riskTolerance : String) (query : String) : String :=
  let riskAverseScore := countTerms riskAverseTerms query
  let riskSeekingScore := countTerms riskSeekingTerms query
  if riskAverseScore > riskSeekingScore then "conservative"
  else if riskSeekingScore > riskAverseScore then "aggressive"
  else if riskTolerance = "unknown" then "moderate"
  else riskTolerance

/-- `updateContext`: bump the basic stats, accumulate topic counts and
intent-type counts, and re-score the risk tolerance. -/
def updateContext (ctx : Ctx) (interaction : Interaction) : Ctx :=
  { totalInteractions := ctx.totalInteractions + 1
    lastInteractionTime := some interaction.timestamp
    commonTopics := (extractTopics interaction.userQuery).foldl bump ctx.commonTopics
    preferredAnalysisTypes :=
      match truthyType interaction.intent with
      | some t => bump ctx.preferredAnalysisTypes t
      | none => ctx.preferredAnalysisTypes
    riskTolerance := updateRiskTolerance ctx.riskTolerance interaction.userQuery }

/-- `addInteraction`: create the user and platform entries lazily, push the
new interaction, update the context, then trim the log to the cap. -/
def addInteraction (m : Memory) (userId platform userQuery aiResponse : String)
    (intent : Intent) (now : Nat) : Memory :=
  let userMemory := (mapGet m.memory userId).getD []
  let platformMemory := (mapGet userMemory platform).getD PlatformMemory.empty
  let interaction : Interaction := ⟨now, userQuery, aiResponse, intent, m.nextId⟩
  let interactions := platformMemory.interactions ++ [interaction]
  let context := updateContext platformMemory.context interaction
  let interactions :=
    if interactions.length > maxInteractionsPerUser then
      sliceLast interactions maxInteractionsPerUser
    else interactions
  { memory := mapSet m.memory userId
      (mapSet userMemory platform ⟨interactions, context⟩)
    nextId := m.nextId + 1 }

/-- The platform entry of a (user, platform) pair, if any
(`this.memory.get(userId)` then `.has/.get(platform)`). -/
def lookupPM (m : Memory) (userId platform : String) : Option PlatformMemory :=
  match mapGet m.memory userId with
  | none => none
  | some userMemory => mapGet userMemory platform

/-- The value `getContext` returns. -/
structure ContextResult where
  hasHistory : Bool
  totalInteractions : Nat
  recentInteractions : List Interaction
  commonTopics : List String
  preferredAnalysisTypes : List String
  riskTolerance : String
  lastInteractionTime : Option Nat
deriving DecidableEq, Repr

/-- The object returned for an unknown key (its absent `lastInteractionTime`
field, i.e. `undefined`, is `none`). -/
def emptyContextResult : ContextResult :=
  ⟨false, 0, [], [], [], "unknown", none⟩

/-- `getContext`: the empty result for an unknown key, otherwise the recent
window plus the derived statistics, with topics sorted descending by count
(ties in insertion order) and capped at 5, intent types likewise capped
at 3. -/
def getContext (m : Memory) (userId platform : String) : ContextResult :=
  match lookupPM m userId platform with
  | none => emptyContextResult
  | some pm =>
    { hasHistory := decide (pm.interactions.length > 0)
      totalInteractions := pm.context.totalInteractions
      recentInteractions := sliceLast pm.interactions contextWindowSize
      commonTopics :=
        ((sortByCountDesc pm.context.commonTopics).take 5).map Prod.fst
      preferredAnalysisTypes :=
        ((sortByCountDesc pm.context.preferredAnalysisTypes).take 3).map Prod.fst
      riskTolerance := pm.context.riskTolerance
      lastInteractionTime := pm.context.lastInteractionTime }

/-- `getHistory`: the last `limit` interactions, `[]` for an unknown key. -/
def getHistory (m : Memory) (userId platform : String) (limit : Nat) :
    List Interaction :=
  match lookupPM m userId platform with
  | none => []
  | some pm => sliceLast pm.interactions limit

/-- `clear` (the state effect): delete the platform entry; delete the user
entry too once it has no platforms left. -/
def clear (m : Memory) (userId platform : String) : Memory :=
  match mapGet m.memory userId with
  | none => m
  | some userMemory =>
    if mapHas userMemory platform then
      let userMemory := mapDel userMemory platform
      if userMemory.isEmpty then { m with memory := mapDel m.memory userId }
      else { m with memory := mapSet m.memory userId userMemory }
    else m

/-- The value a call to the nested-map `clear` evaluates to: the method body
contains no return statement, so every call yields `undefined`, which as a
claimed boolean is `none`. -/
def clearRet (_m : Memory) (_userId _platform : String) : Option Bool := none

/-- The interactions kept by `cleanup`: strictly newer than the cutoff
(`new Date(interaction.timestamp) > cutoffTime`). -/
def keepNewer (cutoffTime : Int) (l : List Interaction) : List Interaction :=
  l.filter (fun i => decide (cutoffTime < (i.timestamp : Int)))

/-- The per-user pass of `cleanup`: walk the platform entries in order,
filter every platform's log to its strictly-newer interactions, drop a
platform entirely once its log became empty, and count the removed
interactions (JavaScript deletes the current entry while iterating the
`Map`, which is safe and has exactly this effect). -/
def cleanupUser (cutoffTime : Int) :
    List (String × PlatformMemory) → List (String × PlatformMemory) × Nat
  | [] => ([], 0)
  | pp :: ps =>
    let kept := keepNewer cutoffTime pp.2.interactions
    let rest := cleanupUser cutoffTime ps
    (if kept.isEmpty then rest.1 else (pp.1, ⟨kept, pp.2.context⟩) :: rest.1,
     (pp.2.interactions.length - kept.length) + rest.2)

/-- The outer pass of `cleanup`: run the per-user pass on every user in
order and drop a user entirely once it has no platforms left. -/
def cleanupUsers (cutoffTime : Int) :
    List (String × List (String × PlatformMemory)) →
      List (String × List (String × PlatformMemory)) × Nat
  | [] => ([], 0)
  | up :: us =>
    let cu := cleanupUser cutoffTime up.2
    let rest := cleanupUsers cutoffTime us
    (if cu.1.isEmpty then rest.1 else (up.1, cu.1) :: rest.1, cu.2 + rest.2)

/-- `cleanup(maxAgeHours)`: cutoff is `Date.now() - maxAgeHours*3600000`;
every log is filtered to its strictly-newer interactions, empty platforms
and then empty users are deleted, and the number of removed interactions is
returned. -/
def cleanup (m : Memory) (now : Nat) (maxAgeHours : Nat) : Memory × Nat :=
  let res := cleanupUsers ((now : Int) - (maxAgeHours : Int) * 3600000) m.memory
  ({ m with memory := res.1 }, res.2)

/-- Observation: the interaction log of a key (empty when absent, matching
the initial value of a fresh entry). -/
def logOf (m : Memory) (userId platform : String) : List Interaction :=
  match lookupPM m userId platform with
  | none => []
  | some pm => pm.interactions

/-- Observation: the rolling context of a key (the fresh context when
absent). -/
def ctxOf (m : Memory) (userId platform : String) : Ctx :=
  match lookupPM m userId platform with
  | none => Ctx.empty
  | some pm => pm.context

end Nested

/-! ## The flat-map implementation

`this.conversations : Map<userId + ":" + platform, conversation>`,
`maxHistoryPerUser = 20`. -/

namespace Flat

/-- One interaction record of the flat-map implementation. -/
structure Interaction where
  timestamp : Nat
  userQuery : String
  aiResponse : String
  intent : Intent
  queryLength : Nat
  responseLength : Nat
deriving DecidableEq, Repr

/-- The per-conversation metadata.  `preferredTopics` is a JavaScript `Set`
(insertion-ordered, no duplicates); `averageQueryLength` is a JavaScript
number produced by division, modelled exactly as a rational. -/
structure Metadata where
  firstInteraction : Nat
  lastInteraction : Nat
  totalInteractions : Nat
  preferredTopics : List String
  averageQueryLength : Rat
deriving DecidableEq, Repr

/-- One conversation entry. -/
structure Conversation where
  userId : String
  platform : String
  interactions : List Interaction
  metadata : Metadata
deriving DecidableEq, Repr

/-- The whole store. -/
structure Memory where
  conversations : List (String × Conversation)
deriving DecidableEq, Repr

/-- The store as constructed: empty. -/
def Memory.empty : Memory := ⟨[]⟩

def maxHistoryPerUser : Nat := 20

/-- `getMemoryKey`: the template string `userId + ":" + platform`. -/
def getMemoryKey (userId platform : String) : String :=
  userId ++ ":" ++ platform

/-- JavaScript `Set.prototype.add`: append if not already present. -/
def setAdd (s : List String) (x : String) : List String :=
  if x ∈ s then s else s ++ [x]

/-- `addInteraction`: create the conversation lazily, push the interaction,
update the metadata (last time, total counter, preferred topics, average
query length over the untrimmed log), then trim the log to the cap. -/
def addInteraction (m : Memory) (userId platform userQuery aiResponse : String)
    (intent : Intent) (now : Nat) : Memory :=
  let key := getMemoryKey userId platform
  let conversation := (mapGet m.conversations key).getD
    ⟨userId, platform, [], ⟨now, now, 0, [], 0⟩⟩
  let interaction : Interaction :=
    ⟨now, userQuery, aiResponse, intent, userQuery.length, aiResponse.length⟩
  let interactions := conversation.interactions ++ [interaction]
  let preferredTopics :=
    match truthyType intent with
    | some t => setAdd conversation.metadata.preferredTopics t
    | none => conversation.metadata.preferredTopics
  let totalLength : Nat := interactions.foldl (fun s i => s + i.queryLength) 0
  let averageQueryLength : Rat := (totalLength : Rat) / (interactions.length : Rat)
  let interactions :=
    if interactions.length > maxHistoryPerUser then
      sliceLast interactions maxHistoryPerUser
    else interactions
  ⟨mapSet m.conversations key
    ⟨userId, platform, interactions,
     ⟨conversation.metadata.firstInteraction, now,
      conversation.metadata.totalInteractions + 1,
      preferredTopics, averageQueryLength⟩⟩⟩

/-- `calculateEngagementScore`: average query/response lengths over the last
five interactions, thresholded. -/
def calculateEngagementScore (interactions : List Interaction) : String :=
  if interactions.length < 2 then "new"
  else
    let recent := sliceLast interactions 5
    let avgQueryLength : Rat :=
      ((recent.foldl (fun s i => s + i.queryLength) 0 : Nat) : Rat) / (recent.length : Rat)
    let avgResponseLength : Rat :=
      ((recent.foldl (fun s i => s + i.responseLength) 0 : Nat) : Rat) / (recent.length : Rat)
    if 100 < avgQueryLength ∧ 200 < avgResponseLength then "high"
    else if 50 < avgQueryLength ∧ 100 < avgResponseLength then "medium"
    else "low"

/-- `analyzeRecentFocus`: the most common truthy intent type of the given
interactions; `Object.keys(counts).reduce((a, b) => counts[a] > counts[b] ? a : b)`
lets a later key win ties. -/
def analyzeRecentFocus (recentInteractions : List Interaction) : String :=
  let intentTypes := recentInteractions.filterMap (fun i => truthyType i.intent)
  if intentTypes.isEmpty then "general"
  else
    let counts := intentTypes.foldl bump []
    match keysOf counts with
    | [] => "general"
    | k :: ks =>
      ks.foldl (fun a b =>
        if (mapGet counts a).getD 0 > (mapGet counts b).getD 0 then a else b) k

/-- The consecutive timestamp differences of a list of interactions
(`new Date(recent[i].timestamp) - new Date(recent[i-1].timestamp)`). -/
def pairDiffs : List Interaction → List Int
  | a :: b :: rest => ((b.timestamp : Int) - (a.timestamp : Int)) :: pairDiffs (b :: rest)
  | _ => []

/-- `analyzeInteractionPattern`: the average gap of the last three
interactions, in minutes, thresholded. -/
def analyzeInteractionPattern (interactions : List Interaction) : String :=
  if interactions.length < 3 then "developing"
  else
    let recent := sliceLast interactions 3
    let intervals := pairDiffs recent
    let avgInterval : Rat :=
      (intervals.foldl (fun s x => s + (x : Rat)) 0) / (intervals.length : Rat)
    let avgMinutes := avgInterval / (1000 * 60)
    if avgMinutes < 5 then "rapid"
    else if avgMinutes < 30 then "moderate"
    else "sporadic"

/-- JavaScript `Math.round` on an exact rational: half rounds up. -/
def jsRound (q : Rat) : Int := Int.floor (q + 1 / 2)

/-- The summary object built by `generateContextSummary`. -/
structure ContextSummary where
  userEngagement : String
  preferredTopics : List String
  averageQueryLength : Int
  recentFocus : String
  interactionPattern : String
deriving DecidableEq, Repr

/-- `generateContextSummary`: `null` for an empty log. -/
def generateContextSummary (c : Conversation) : Option ContextSummary :=
  if c.interactions.isEmpty then none
  else some
    { userEngagement := calculateEngagementScore c.interactions
      preferredTopics := c.metadata.preferredTopics
      averageQueryLength := jsRound c.metadata.averageQueryLength
      recentFocus := analyzeRecentFocus (sliceLast c.interactions 3)
      interactionPattern := analyzeInteractionPattern c.interactions }

/-- The value `getContext` returns.  In the unknown-key object the
`totalInteractions` field is absent (`undefined`) and `metadata` and
`contextSummary` are `null`; all three are `none`. -/
structure Context where
  hasHistory : Bool
  recentInteractions : List Interaction
  metadata : Option Metadata
  contextSummary : Option ContextSummary
  totalInteractions : Option Nat
deriving DecidableEq, Repr

/-- The unknown-key result of `getContext`. -/
def emptyContext : Context := ⟨false, [], none, none, none⟩

/-- `getContext(userId, platform, limit = 5)`. -/
def getContext (m : Memory) (userId platform : String) (limit : Nat) : Context :=
  match mapGet m.conversations (getMemoryKey userId platform) with
  | none => emptyContext
  | some c =>
    { hasHistory := true
      recentInteractions := sliceLast c.interactions limit
      metadata := some c.metadata
      contextSummary := generateContextSummary c
      totalInteractions := some c.metadata.totalInteractions }

/-- `getHistory`: the last `limit` interactions, `[]` for an unknown key. -/
def getHistory (m : Memory) (userId platform : String) (limit : Nat) :
    List Interaction :=
  match mapGet m.conversations (getMemoryKey userId platform) with
  | none => []
  | some c => sliceLast c.interactions limit

/-- `clear`: `this.conversations.delete(key)` — the new state together with
the deletion result the method returns. -/
def clear (m : Memory) (userId platform : String) : Memory × Bool :=
  let key := getMemoryKey userId platform
  (⟨mapDel m.conversations key⟩, mapHas m.conversations key)

/-- Observation: the interaction log of a key (empty when absent). -/
def logOf (m : Memory) (userId platform : String) : List Interaction :=
  match mapGet m.conversations (getMemoryKey userId platform) with
  | none => []
  | some c => c.interactions

end Flat

/-! ## Generic lemmas about the map model and slicing -/

theorem mapGet_set_self {α : Type} (m : List (String × α)) (k : String) (v : α) :
    mapGet (mapSet m k v) k = some v := by
  induction m with
  | nil => simp [mapSet, mapGet]
  | cons p ps ih =>
    by_cases h : p.1 = k
    · simp [mapSet, h, mapGet]
    · simp [mapSet, h, mapGet, ih]

theorem mapGet_set_ne {α : Type} {k k2 : String} (h : k2 ≠ k)
    (m : List (String × α)) (v : α) :
    mapGet (mapSet m k v) k2 = mapGet m k2 := by
  have hks : ¬ k = k2 := fun hh => h hh.symm
  induction m with
  | nil => simp [mapSet, mapGet, hks]
  | cons p ps ih =>
    by_cases hp : p.1 = k
    · have hp2 : ¬ p.1 = k2 := by rw [hp]; exact hks
      simp [mapSet, mapGet, hp, hp2, hks]
    · by_cases hp2 : p.1 = k2
      · simp [mapSet, mapGet, hp, hp2, h]
      · simp [mapSet, mapGet, hp, hp2, ih]

theorem mapGet_del_self {α : Type} (m : List (String × α)) (k : String) :
    mapGet (mapDel m k) k = none := by
  induction m with
  | nil => simp [mapDel, mapGet]
  | cons p ps ih =>
    by_cases h : p.1 = k
    · simp [mapDel, h, ih]
    · simp [mapDel, h, mapGet, ih]

theorem mapGet_del_ne {α : Type} {k k2 : String} (h : k2 ≠ k)
    (m : List (String × α)) :
    mapGet (mapDel m k) k2 = mapGet m k2 := by
  induction m with
  | nil => simp [mapDel]
  | cons p ps ih =>
    have hkk2 : ¬ k = k2 := fun hh => h hh.symm
    by_cases hp : p.1 = k
    · simp [mapDel, mapGet, hp, hkk2, ih]
    · by_cases hp2 : p.1 = k2
      · simp [mapDel, mapGet, hp, hp2, h]
      · simp [mapDel, mapGet, hp, hp2, ih]

theorem mapHas_eq_isSome {α : Type} (m : List (String × α)) (k : String) :
    mapHas m k = (mapGet m k).isSome := by
  induction m with
  | nil => simp [mapHas, mapGet]
  | cons p ps ih =>
    by_cases h : p.1 = k
    · simp [mapHas, h, mapGet]
    · simp [mapHas, h, mapGet, ih]

theorem mapDel_del {α : Type} (m : List (String × α)) (k : String) :
    mapDel (mapDel m k) k = mapDel m k := by
  induction m with
  | nil => simp [mapDel]
  | cons p ps ih =>
    by_cases h : p.1 = k
    · simp [mapDel, h, ih]
    · simp [mapDel, h, ih]

theorem mapHas_del_self {α : Type} (m : List (String × α)) (k : String) :
    mapHas (mapDel m k) k = false := by
  rw [mapHas_eq_isSome, mapGet_del_self, Option.isSome_none]

theorem mapGet_some_mem {α : Type} {m : List (String × α)} {k : String} {v : α}
    (h : mapGet m k = some v) : (k, v) ∈ m := by
  induction m with
  | nil => simp [mapGet] at h
  | cons p ps ih =>
    obtain ⟨a, b⟩ := p
    by_cases hp : a = k
    · have hv : b = v := by simpa [mapGet, hp] using h
      subst hp
      subst hv
      exact List.mem_cons_self _ _
    · exact List.mem_cons_of_mem _ (ih (by simpa [mapGet, hp] using h))

theorem mapGet_eq_none_of_not_mem {α : Type} {m : List (String × α)} {k : String}
    (h : k ∉ keysOf m) : mapGet m k = none := by
  induction m with
  | nil => simp [mapGet]
  | cons p ps ih =>
    simp only [keysOf, List.map_cons, List.mem_cons] at h
    push_neg at h
    rw [mapGet, if_neg (fun hh => h.1 hh.symm)]
    exact ih (by simpa [keysOf] using h.2)

theorem mem_keysOf_mapSet {α : Type} {m : List (String × α)} {k x : String} {v : α}
    (h : x ∈ keysOf (mapSet m k v)) : x ∈ keysOf m ∨ x = k := by
  induction m with
  | nil => simpa [mapSet, keysOf] using h
  | cons p ps ih =>
    by_cases hp : p.1 = k
    · rw [mapSet, if_pos hp] at h
      simp only [keysOf, List.map_cons, List.mem_cons] at h ⊢
      rcases h with h | h
      · exact Or.inr h
      · exact Or.inl (Or.inr h)
    · rw [mapSet, if_neg hp] at h
      simp only [keysOf, List.map_cons, List.mem_cons] at h ⊢
      rcases h with h | h
      · exact Or.inl (Or.inl h)
      · rcases ih h with h2 | h2
        · exact Or.inl (Or.inr h2)
        · exact Or.inr h2

theorem nodup_keysOf_mapSet {α : Type} {m : List (String × α)} (k : String) (v : α)
    (h : (keysOf m).Nodup) : (keysOf (mapSet m k v)).Nodup := by
  induction m with
  | nil => simp [mapSet, keysOf]
  | cons p ps ih =>
    simp only [keysOf, List.map_cons, List.nodup_cons] at h
    by_cases hp : p.1 = k
    · rw [mapSet, if_pos hp]
      simp only [keysOf, List.map_cons, List.nodup_cons]
      exact ⟨by rw [← hp]; exact h.1, h.2⟩
    · rw [mapSet, if_neg hp]
      simp only [keysOf, List.map_cons, List.nodup_cons]
      refine ⟨fun hmem => ?_, ih h.2⟩
      rcases mem_keysOf_mapSet hmem with h2 | h2
      · exact h.1 h2
      · exact hp h2

theorem mem_mapSet {α : Type} {m : List (String × α)} {k : String} {v : α} {e : String × α}
    (h : e ∈ mapSet m k v) : e ∈ m ∨ e = (k, v) := by
  induction m with
  | nil => simpa [mapSet] using h
  | cons p ps ih =>
    by_cases hp : p.1 = k
    · rw [mapSet, if_pos hp] at h
      rcases List.mem_cons.1 h with h2 | h2
      · exact Or.inr h2
      · exact Or.inl (List.mem_cons_of_mem _ h2)
    · rw [mapSet, if_neg hp] at h
      rcases List.mem_cons.1 h with h2 | h2
      · exact Or.inl (h2 ▸ List.mem_cons_self _ _)
      · rcases ih h2 with h3 | h3
        · exact Or.inl (List.mem_cons_of_mem _ h3)
        · exact Or.inr h3

theorem mapDel_sublist {α : Type} (m : List (String × α)) (k : String) :
    (mapDel m k).Sublist m := by
  induction m with
  | nil => simp [mapDel]
  | cons p ps ih =>
    by_cases h : p.1 = k
    · rw [mapDel, if_pos h]
      exact ih.cons _
    · rw [mapDel, if_neg h]
      exact ih.cons₂ _

theorem sliceLast_of_le {α : Type} {l : List α} {n : Nat} (h : l.length ≤ n) :
    sliceLast l n = l := by
  by_cases h0 : n = 0
  · simp [sliceLast, h0]
  · simp [sliceLast, h0, Nat.sub_eq_zero_of_le h]

theorem sliceLast_length {α : Type} (l : List α) (n : Nat) (h : 0 < n) :
    (sliceLast l n).length = min n l.length := by
  rw [sliceLast, if_neg (Nat.pos_iff_ne_zero.1 h)]
  rw [List.length_drop]
  omega

theorem sliceLast_append_one {α : Type} (l : List α) (x : α) :
    sliceLast (l ++ [x]) 1 = [x] := by
  rw [sliceLast, if_neg one_ne_zero, List.length_append, List.length_singleton,
    Nat.add_sub_cancel, List.drop_append_eq_append_drop, List.drop_length,
    List.nil_append, Nat.sub_self, List.drop_zero]

/-- The trimming step `if (log.length > cap) log = log.slice(-cap)` as a
function, for stating lemmas about both implementations. -/
def trimCap {α : Type} (cap : Nat) (l : List α) : List α :=
  if l.length > cap then sliceLast l cap else l

theorem trimCap_length_le {α : Type} (cap : Nat) (l : List α) (h : 0 < cap) :
    (trimCap cap l).length ≤ cap := by
  rw [trimCap]
  by_cases hl : l.length > cap
  · rw [if_pos hl, sliceLast_length _ _ h]
    omega
  · rw [if_neg hl]
    omega

theorem trimCap_length_le_self {α : Type} (cap : Nat) (l : List α) :
    (trimCap cap l).length ≤ l.length := by
  rw [trimCap]
  by_cases hl : l.length > cap
  · rw [if_pos hl]
    by_cases h0 : cap = 0
    · simp [sliceLast, h0]
    · rw [sliceLast_length _ _ (Nat.pos_of_ne_zero h0)]
      omega
  · rw [if_neg hl]

theorem trimCap_append_shape {α : Type} (cap : Nat) (l : List α) (x : α)
    (h : 0 < cap) : ∃ l0 : List α, trimCap cap (l ++ [x]) = l0 ++ [x] := by
  rw [trimCap]
  by_cases hl : (l ++ [x]).length > cap
  · refine ⟨l.drop ((l ++ [x]).length - cap), ?_⟩
    rw [if_pos hl, sliceLast, if_neg (Nat.pos_iff_ne_zero.1 h),
      List.drop_append_eq_append_drop]
    have hle : (l ++ [x]).length - cap ≤ l.length := by
      rw [List.length_append, List.length_singleton]
      omega
    rw [Nat.sub_eq_zero_of_le hle, List.drop_zero]
  · exact ⟨l, if_neg hl⟩

theorem sliceLast_trimCap_append_one {α : Type} (cap : Nat) (l : List α) (x : α)
    (h : 0 < cap) : sliceLast (trimCap cap (l ++ [x])) 1 = [x] := by
  rcases trimCap_append_shape cap l x h with ⟨l0, hl0⟩
  rw [hl0, sliceLast_append_one]

theorem foldl_add_eq_sum {α : Type} (f : α → Nat) (l : List α) (n : Nat) :
    l.foldl (fun acc x => acc + f x) n = n + (l.map f).sum := by
  induction l generalizing n with
  | nil => simp
  | cons a as ih => simp [ih, Nat.add_assoc]

theorem sum_sub_add_sum {α : Type} (f g : α → Nat) (l : List α)
    (h : ∀ x ∈ l, g x ≤ f x) :
    (l.map (fun x => f x - g x)).sum + (l.map g).sum = (l.map f).sum := by
  induction l with
  | nil => simp
  | cons a as ih =>
    simp only [List.map_cons, List.sum_cons]
    have ha := h a (List.mem_cons_self _ _)
    have := ih (fun x hx => h x (List.mem_cons_of_mem _ hx))
    omega

theorem sum_map_filter {α : Type} (pred : α → Bool) (f : α → Nat) (l : List α)
    (h : ∀ x ∈ l, pred x = false → f x = 0) :
    ((l.filter pred).map f).sum = (l.map f).sum := by
  induction l with
  | nil => simp
  | cons a as ih =>
    have tail := ih (fun x hx => h x (List.mem_cons_of_mem _ hx))
    by_cases hp : pred a
    · simp [List.filter_cons, hp, tail]
    · have := h a (List.mem_cons_self _ _) (by simpa using hp)
      simp [List.filter_cons, hp, tail, this]

theorem sum_map_add_of {α : Type} (f g h : α → Nat) (l : List α)
    (hx : ∀ x ∈ l, f x + g x = h x) :
    (l.map f).sum + (l.map g).sum = (l.map h).sum := by
  induction l with
  | nil => simp
  | cons a as ih =>
    have ha := hx a (List.mem_cons_self _ _)
    have := ih (fun x hh => hx x (List.mem_cons_of_mem _ hh))
    simp only [List.map_cons, List.sum_cons]
    omega

theorem mapGet_mapValues {α β : Type} (f : α → β) (m : List (String × α)) (k : String) :
    mapGet (m.map (fun p => (p.1, f p.2))) k = (mapGet m k).map f := by
  induction m with
  | nil => simp [mapGet]
  | cons p ps ih =>
    by_cases hp : p.1 = k
    · simp [mapGet, hp]
    · simp [mapGet, hp, ih]

theorem keysOf_mapValues {α β : Type} (f : α → β) (m : List (String × α)) :
    keysOf (m.map (fun p => (p.1, f p.2))) = keysOf m := by
  simp [keysOf, List.map_map]

theorem keysOf_filter_subset {α : Type} {pred : String × α → Bool}
    {m : List (String × α)} {x : String} (h : x ∈ keysOf (m.filter pred)) :
    x ∈ keysOf m :=
  (((List.filter_sublist m).map Prod.fst).subset) h

theorem mapGet_filterValues {α : Type} (pred : α → Bool) (m : List (String × α))
    (k : String) (hnd : (keysOf m).Nodup) :
    mapGet (m.filter (fun p => pred p.2)) k =
      (match mapGet m k with
       | none => none
       | some v => if pred v then some v else none) := by
  induction m with
  | nil => simp [mapGet]
  | cons p ps ih =>
    simp only [keysOf, List.map_cons, List.nodup_cons] at hnd
    have tail := ih (by simpa [keysOf] using hnd.2)
    by_cases hp : p.1 = k
    · by_cases hpred : pred p.2
      · simp [List.filter_cons, hpred, mapGet, hp]
      · have hnotin : k ∉ keysOf ps := by rw [← hp]; exact hnd.1
        have hnone : mapGet (ps.filter (fun q => pred q.2)) k = none :=
          mapGet_eq_none_of_not_mem (fun hmem => hnotin (keysOf_filter_subset hmem))
        simp [List.filter_cons, hpred, mapGet, hp, hnone]
    · by_cases hpred : pred p.2
      · simp [List.filter_cons, hpred, mapGet, hp, tail]
      · simp [List.filter_cons, hpred, mapGet, hp, tail]

/-! ## Lemmas about the nested-map operations -/

namespace Nested

/-- The interaction record `addInteraction` constructs. -/
def mkI (m : Memory) (q r : String) (i : Intent) (t : Nat) : Interaction :=
  ⟨t, q, r, i, m.nextId⟩

theorem addInteraction_memory (m : Memory) (u p q r : String) (i : Intent) (t : Nat) :
    (addInteraction m u p q r i t).memory =
      mapSet m.memory u (mapSet ((mapGet m.memory u).getD []) p
        ⟨trimCap maxInteractionsPerUser (logOf m u p ++ [mkI m q r i t]),
         updateContext (ctxOf m u p) (mkI m q r i t)⟩) := by
  unfold addInteraction logOf ctxOf mkI trimCap lookupPM
  cases h1 : mapGet m.memory u with
  | none => simp [h1, mapGet, PlatformMemory.empty, Ctx.empty]
  | some um =>
    cases h2 : mapGet um p with
    | none => simp [h1, h2, PlatformMemory.empty, Ctx.empty]
    | some pm => simp [h1, h2]

theorem lookupPM_add_self (m : Memory) (u p q r : String) (i : Intent) (t : Nat) :
    lookupPM (addInteraction m u p q r i t) u p =
      some ⟨trimCap maxInteractionsPerUser (logOf m u p ++ [mkI m q r i t]),
            updateContext (ctxOf m u p) (mkI m q r i t)⟩ := by
  unfold lookupPM
  rw [addInteraction_memory, mapGet_set_self]
  exact mapGet_set_self _ _ _

theorem lookupPM_add_ne (m : Memory) (u p u2 p2 q r : String) (i : Intent) (t : Nat)
    (h : ¬ (u2 = u ∧ p2 = p)) :
    lookupPM (addInteraction m u p q r i t) u2 p2 = lookupPM m u2 p2 := by
  unfold lookupPM
  rw [addInteraction_memory]
  by_cases hu : u2 = u
  · subst hu
    have hp : p2 ≠ p := fun hh => h ⟨rfl, hh⟩
    rw [mapGet_set_self]
    show mapGet (mapSet ((mapGet m.memory u2).getD []) p _) p2 = _
    rw [mapGet_set_ne hp]
    cases h1 : mapGet m.memory u2 with
    | none => rfl
    | some um => rfl
  · rw [mapGet_set_ne hu]

theorem logOf_add_self (m : Memory) (u p q r : String) (i : Intent) (t : Nat) :
    logOf (addInteraction m u p q r i t) u p =
      trimCap maxInteractionsPerUser (logOf m u p ++ [mkI m q r i t]) := by
  unfold logOf
  rw [lookupPM_add_self]
  rfl

theorem ctxOf_add_self (m : Memory) (u p q r : String) (i : Intent) (t : Nat) :
    ctxOf (addInteraction m u p q r i t) u p =
      updateContext (ctxOf m u p) (mkI m q r i t) := by
  unfold ctxOf
  rw [lookupPM_add_self]
  rfl

theorem getHistory_congr {m m2 : Memory} {u p u2 p2 : String}
    (h : lookupPM m u p = lookupPM m2 u2 p2) (limit : Nat) :
    getHistory m u p limit = getHistory m2 u2 p2 limit := by
  unfold getHistory
  rw [h]

theorem getContext_congr {m m2 : Memory} {u p u2 p2 : String}
    (h : lookupPM m u p = lookupPM m2 u2 p2) :
    getContext m u p = getContext m2 u2 p2 := by
  unfold getContext
  rw [h]

theorem lookupPM_empty (u p : String) : lookupPM Memory.empty u p = none := rfl

theorem clear_eq_of_get_none (m : Memory) (u p : String)
    (h : mapGet m.memory u = none) : clear m u p = m := by
  unfold clear
  rw [h]

theorem clear_eq_of_get_some (m : Memory) (u p : String)
    (um : List (String × PlatformMemory)) (h : mapGet m.memory u = some um) :
    clear m u p =
      (if mapHas um p then
        (if (mapDel um p).isEmpty then { m with memory := mapDel m.memory u }
         else { m with memory := mapSet m.memory u (mapDel um p) })
       else m) := by
  unfold clear
  rw [h]

theorem lookupPM_clear_self (m : Memory) (u p : String) :
    lookupPM (clear m u p) u p = none := by
  cases h1 : mapGet m.memory u with
  | none =>
    rw [clear_eq_of_get_none m u p h1]
    unfold lookupPM
    rw [h1]
  | some um =>
    rw [clear_eq_of_get_some m u p um h1]
    by_cases h2 : mapHas um p
    · rw [if_pos h2]
      by_cases h3 : (mapDel um p).isEmpty
      · rw [if_pos h3]
        unfold lookupPM
        rw [mapGet_del_self]
      · rw [if_neg h3]
        unfold lookupPM
        rw [mapGet_set_self]
        exact mapGet_del_self _ _
    · rw [if_neg h2]
      unfold lookupPM
      rw [h1]
      have h4 : (mapGet um p).isSome = false := by rw [← mapHas_eq_isSome]; simpa using h2
      simpa using Option.not_isSome_iff_eq_none.1 (by simp [h4])

theorem clear_of_lookup_none (m : Memory) (u p : String)
    (h : lookupPM m u p = none) : clear m u p = m := by
  cases h1 : mapGet m.memory u with
  | none => exact clear_eq_of_get_none m u p h1
  | some um =>
    rw [clear_eq_of_get_some m u p um h1]
    have h2 : mapGet um p = none := by
      unfold lookupPM at h
      rw [h1] at h
      exact h
    have hh : ¬ mapHas um p = true := by rw [mapHas_eq_isSome, h2]; simp
    rw [if_neg hh]

theorem clear_clear (m : Memory) (u p : String) :
    clear (clear m u p) u p = clear m u p :=
  clear_of_lookup_none _ _ _ (lookupPM_clear_self m u p)

theorem lookupPM_clear_le (m : Memory) (u p u2 p2 : String) (pm : PlatformMemory)
    (h : lookupPM (clear m u p) u2 p2 = some pm) :
    lookupPM m u2 p2 = some pm := by
  cases h1 : mapGet m.memory u with
  | none => rw [clear_eq_of_get_none m u p h1] at h; exact h
  | some um =>
    rw [clear_eq_of_get_some m u p um h1] at h
    by_cases h2 : mapHas um p
    · rw [if_pos h2] at h
      by_cases h3 : (mapDel um p).isEmpty
      · rw [if_pos h3] at h
        unfold lookupPM at h ⊢
        by_cases hu : u2 = u
        · subst hu
          rw [show ({ m with memory := mapDel m.memory u2 } : Memory).memory =
            mapDel m.memory u2 from rfl, mapGet_del_self] at h
          exact absurd h (by simp)
        · rw [show ({ m with memory := mapDel m.memory u } : Memory).memory =
            mapDel m.memory u from rfl, mapGet_del_ne hu] at h
          exact h
      · rw [if_neg h3] at h
        unfold lookupPM at h ⊢
        by_cases hu : u2 = u
        · subst hu
          rw [show ({ m with memory := mapSet m.memory u2 (mapDel um p) } : Memory).memory =
            mapSet m.memory u2 (mapDel um p) from rfl, mapGet_set_self] at h
          replace h : mapGet (mapDel um p) p2 = some pm := h
          rw [h1]
          show mapGet um p2 = some pm
          by_cases hp : p2 = p
          · subst hp
            rw [mapGet_del_self] at h
            exact absurd h (by simp)
          · rw [mapGet_del_ne hp] at h
            exact h
        · rw [show ({ m with memory := mapSet m.memory u (mapDel um p) } : Memory).memory =
            mapSet m.memory u (mapDel um p) from rfl, mapGet_set_ne hu] at h
          exact h
    · rw [if_neg h2] at h
      exact h

/-- The cutoff instant `cleanup` computes. -/
def cutoffOf (now maxAgeHours : Nat) : Int :=
  (now : Int) - (maxAgeHours : Int) * 3600000

theorem cleanup_fst (m : Memory) (now maxAgeHours : Nat) :
    (cleanup m now maxAgeHours).1 =
      { m with memory := (cleanupUsers (cutoffOf now maxAgeHours) m.memory).1 } := rfl

theorem cleanup_snd (m : Memory) (now maxAgeHours : Nat) :
    (cleanup m now maxAgeHours).2 =
      (cleanupUsers (cutoffOf now maxAgeHours) m.memory).2 := rfl

theorem cleanupUser_fst_cons (c : Int) (pp : String × PlatformMemory)
    (ps : List (String × PlatformMemory)) :
    (cleanupUser c (pp :: ps)).1 =
      (if (keepNewer c pp.2.interactions).isEmpty then (cleanupUser c ps).1
       else (pp.1, ⟨keepNewer c pp.2.interactions, pp.2.context⟩) :: (cleanupUser c ps).1) :=
  rfl

theorem cleanupUser_snd_cons (c : Int) (pp : String × PlatformMemory)
    (ps : List (String × PlatformMemory)) :
    (cleanupUser c (pp :: ps)).2 =
      (pp.2.interactions.length - (keepNewer c pp.2.interactions).length) +
        (cleanupUser c ps).2 :=
  rfl

theorem cleanupUsers_fst_cons (c : Int) (up : String × List (String × PlatformMemory))
    (us : List (String × List (String × PlatformMemory))) :
    (cleanupUsers c (up :: us)).1 =
      (if (cleanupUser c up.2).1.isEmpty then (cleanupUsers c us).1
       else (up.1, (cleanupUser c up.2).1) :: (cleanupUsers c us).1) :=
  rfl

theorem cleanupUsers_snd_cons (c : Int) (up : String × List (String × PlatformMemory))
    (us : List (String × List (String × PlatformMemory))) :
    (cleanupUsers c (up :: us)).2 =
      (cleanupUser c up.2).2 + (cleanupUsers c us).2 :=
  rfl

theorem mem_keysOf_cleanupUser {c : Int} {um : List (String × PlatformMemory)}
    {x : String} (h : x ∈ keysOf (cleanupUser c um).1) : x ∈ keysOf um := by
  induction um with
  | nil => simp [cleanupUser, keysOf] at h
  | cons pp ps ih =>
    rw [cleanupUser_fst_cons] at h
    by_cases he : (keepNewer c pp.2.interactions).isEmpty
    · rw [if_pos he] at h
      simp only [keysOf, List.map_cons, List.mem_cons]
      exact Or.inr (ih h)
    · rw [if_neg he] at h
      simp only [keysOf, List.map_cons, List.mem_cons] at h ⊢
      rcases h with h | h
      · exact Or.inl h
      · exact Or.inr (ih h)

theorem mem_keysOf_cleanupUsers {c : Int}
    {us : List (String × List (String × PlatformMemory))}
    {x : String} (h : x ∈ keysOf (cleanupUsers c us).1) : x ∈ keysOf us := by
  induction us with
  | nil => simp [cleanupUsers, keysOf] at h
  | cons up rest ih =>
    rw [cleanupUsers_fst_cons] at h
    by_cases he : (cleanupUser c up.2).1.isEmpty
    · rw [if_pos he] at h
      simp only [keysOf, List.map_cons, List.mem_cons]
      exact Or.inr (ih h)
    · rw [if_neg he] at h
      simp only [keysOf, List.map_cons, List.mem_cons] at h ⊢
      rcases h with h | h
      · exact Or.inl h
      · exact Or.inr (ih h)

theorem mapGet_cleanupUser (c : Int) (um : List (String × PlatformMemory))
    (p : String) (hum : (keysOf um).Nodup) :
    mapGet (cleanupUser c um).1 p =
      (match mapGet um p with
       | none => none
       | some pm =>
         if (keepNewer c pm.interactions).isEmpty then none
         else some ⟨keepNewer c pm.interactions, pm.context⟩) := by
  induction um with
  | nil => rfl
  | cons pp ps ih =>
    simp only [keysOf, List.map_cons, List.nodup_cons] at hum
    have tail := ih (by simpa [keysOf] using hum.2)
    rw [cleanupUser_fst_cons]
    by_cases hp : pp.1 = p
    · by_cases he : (keepNewer c pp.2.interactions).isEmpty
      · have hnotin : p ∉ keysOf ps := by rw [← hp]; exact hum.1
        have hnone : mapGet (cleanupUser c ps).1 p = none :=
          mapGet_eq_none_of_not_mem (fun hm => hnotin (mem_keysOf_cleanupUser hm))
        rw [if_pos he, hnone]
        simp [mapGet, hp, he]
      · rw [if_neg he]
        simp [mapGet, hp, he]
    · by_cases he : (keepNewer c pp.2.interactions).isEmpty
      · rw [if_pos he, tail]
        simp [mapGet, hp]
      · rw [if_neg he]
        simp [mapGet, hp, tail]

theorem mapGet_cleanupUsers (c : Int)
    (us : List (String × List (String × PlatformMemory)))
    (u : String) (hn : (keysOf us).Nodup) :
    mapGet (cleanupUsers c us).1 u =
      (match mapGet us u with
       | none => none
       | some um =>
         if (cleanupUser c um).1.isEmpty then none
         else some (cleanupUser c um).1) := by
  induction us with
  | nil => rfl
  | cons up rest ih =>
    simp only [keysOf, List.map_cons, List.nodup_cons] at hn
    have tail := ih (by simpa [keysOf] using hn.2)
    rw [cleanupUsers_fst_cons]
    by_cases hu : up.1 = u
    · by_cases he : (cleanupUser c up.2).1.isEmpty
      · have hnotin : u ∉ keysOf rest := by rw [← hu]; exact hn.1
        have hnone : mapGet (cleanupUsers c rest).1 u = none :=
          mapGet_eq_none_of_not_mem (fun hm => hnotin (mem_keysOf_cleanupUsers hm))
        rw [if_pos he, hnone]
        simp [mapGet, hu, he]
      · rw [if_neg he]
        simp [mapGet, hu, he]
    · by_cases he : (cleanupUser c up.2).1.isEmpty
      · rw [if_pos he, tail]
        simp [mapGet, hu]
      · rw [if_neg he]
        simp [mapGet, hu, tail]

theorem lookupPM_cleanup (m : Memory) (now maxAgeHours : Nat) (u p : String)
    (hn : (keysOf m.memory).Nodup)
    (hn2 : ∀ e ∈ m.memory, (keysOf e.2).Nodup) :
    lookupPM (cleanup m now maxAgeHours).1 u p =
      (match lookupPM m u p with
       | none => none
       | some pm =>
         if (keepNewer (cutoffOf now maxAgeHours) pm.interactions).isEmpty then none
         else some ⟨keepNewer (cutoffOf now maxAgeHours) pm.interactions, pm.context⟩) := by
  have hget := mapGet_cleanupUsers (cutoffOf now maxAgeHours) m.memory u hn
  cases h1 : mapGet m.memory u with
  | none =>
    rw [h1] at hget
    replace hget : mapGet (cleanupUsers (cutoffOf now maxAgeHours) m.memory).1 u = none :=
      hget
    have hl : lookupPM m u p = none := by unfold lookupPM; rw [h1]
    rw [hl]
    show (match mapGet (cleanupUsers (cutoffOf now maxAgeHours) m.memory).1 u with
          | none => none
          | some userMemory => mapGet userMemory p) = none
    rw [hget]
  | some um =>
    rw [h1] at hget
    replace hget : mapGet (cleanupUsers (cutoffOf now maxAgeHours) m.memory).1 u =
        (if (cleanupUser (cutoffOf now maxAgeHours) um).1.isEmpty then none
         else some (cleanupUser (cutoffOf now maxAgeHours) um).1) := hget
    have hl : lookupPM m u p = mapGet um p := by unfold lookupPM; rw [h1]
    rw [hl]
    have hum : (keysOf um).Nodup := hn2 _ (mapGet_some_mem h1)
    show (match mapGet (cleanupUsers (cutoffOf now maxAgeHours) m.memory).1 u with
          | none => none
          | some userMemory => mapGet userMemory p) = _
    rw [hget]
    by_cases h2 : (cleanupUser (cutoffOf now maxAgeHours) um).1.isEmpty
    · rw [if_pos h2]
      cases h3 : mapGet um p with
      | none => rfl
      | some pm =>
        by_cases h4 : (keepNewer (cutoffOf now maxAgeHours) pm.interactions).isEmpty
        · show (none : Option PlatformMemory) =
            (if (keepNewer (cutoffOf now maxAgeHours) pm.interactions).isEmpty then none
             else some ⟨keepNewer (cutoffOf now maxAgeHours) pm.interactions, pm.context⟩)
          rw [if_pos h4]
        · exfalso
          have hgu := mapGet_cleanupUser (cutoffOf now maxAgeHours) um p hum
          rw [h3] at hgu
          replace hgu : mapGet (cleanupUser (cutoffOf now maxAgeHours) um).1 p =
              (if (keepNewer (cutoffOf now maxAgeHours) pm.interactions).isEmpty then none
               else some ⟨keepNewer (cutoffOf now maxAgeHours) pm.interactions, pm.context⟩) :=
            hgu
          rw [if_neg h4] at hgu
          rw [List.isEmpty_iff] at h2
          rw [h2] at hgu
          exact absurd hgu (by simp [mapGet])
    · rw [if_neg h2]
      show mapGet (cleanupUser (cutoffOf now maxAgeHours) um).1 p = _
      rw [mapGet_cleanupUser _ _ _ hum]

/-- The store's `Map` objects have unique keys (JavaScript guarantees this;
every reachable embedded state satisfies it). -/
def nodupKeys (m : Memory) : Prop :=
  (keysOf m.memory).Nodup ∧ ∀ e ∈ m.memory, (keysOf e.2).Nodup

theorem nodup_keysOf_cleanupUser {c : Int} {um : List (String × PlatformMemory)}
    (h : (keysOf um).Nodup) : (keysOf (cleanupUser c um).1).Nodup := by
  induction um with
  | nil => simp [cleanupUser, keysOf]
  | cons pp ps ih =>
    simp only [keysOf, List.map_cons, List.nodup_cons] at h
    rw [cleanupUser_fst_cons]
    by_cases he : (keepNewer c pp.2.interactions).isEmpty
    · rw [if_pos he]
      exact ih (by simpa [keysOf] using h.2)
    · rw [if_neg he]
      simp only [keysOf, List.map_cons, List.nodup_cons]
      refine ⟨fun hm => h.1 (mem_keysOf_cleanupUser hm), ih (by simpa [keysOf] using h.2)⟩

theorem nodup_keysOf_cleanupUsers {c : Int}
    {us : List (String × List (String × PlatformMemory))}
    (h : (keysOf us).Nodup) : (keysOf (cleanupUsers c us).1).Nodup := by
  induction us with
  | nil => simp [cleanupUsers, keysOf]
  | cons up rest ih =>
    simp only [keysOf, List.map_cons, List.nodup_cons] at h
    rw [cleanupUsers_fst_cons]
    by_cases he : (cleanupUser c up.2).1.isEmpty
    · rw [if_pos he]
      exact ih (by simpa [keysOf] using h.2)
    · rw [if_neg he]
      simp only [keysOf, List.map_cons, List.nodup_cons]
      refine ⟨fun hm => h.1 (mem_keysOf_cleanupUsers hm), ih (by simpa [keysOf] using h.2)⟩

theorem mem_cleanupUsers {c : Int} {us : List (String × List (String × PlatformMemory))}
    {e : String × List (String × PlatformMemory)} (h : e ∈ (cleanupUsers c us).1) :
    ∃ up ∈ us, e = (up.1, (cleanupUser c up.2).1) := by
  induction us with
  | nil => simp [cleanupUsers] at h
  | cons up rest ih =>
    rw [cleanupUsers_fst_cons] at h
    by_cases he : (cleanupUser c up.2).1.isEmpty
    · rw [if_pos he] at h
      obtain ⟨up2, hmem, heq⟩ := ih h
      exact ⟨up2, List.mem_cons_of_mem _ hmem, heq⟩
    · rw [if_neg he] at h
      rcases List.mem_cons.1 h with h2 | h2
      · exact ⟨up, List.mem_cons_self _ _, h2⟩
      · obtain ⟨up2, hmem, heq⟩ := ih h2
        exact ⟨up2, List.mem_cons_of_mem _ hmem, heq⟩

theorem nodupKeys_empty : nodupKeys Memory.empty := by
  constructor
  · simp [Memory.empty, keysOf]
  · intro e he
    simp [Memory.empty] at he

theorem nodupKeys_add (m : Memory) (u p q r : String) (i : Intent) (t : Nat)
    (h : nodupKeys m) : nodupKeys (addInteraction m u p q r i t) := by
  obtain ⟨h1, h2⟩ := h
  constructor
  · rw [addInteraction_memory]
    exact nodup_keysOf_mapSet _ _ h1
  · intro e he
    rw [addInteraction_memory] at he
    rcases mem_mapSet he with hmem | heq
    · exact h2 e hmem
    · rw [heq]
      cases hget : mapGet m.memory u with
      | none => simp [mapSet, keysOf]
      | some um => exact nodup_keysOf_mapSet _ _ (h2 _ (mapGet_some_mem hget))

theorem nodupKeys_clear (m : Memory) (u p : String)
    (h : nodupKeys m) : nodupKeys (clear m u p) := by
  obtain ⟨h1, h2⟩ := h
  cases hget : mapGet m.memory u with
  | none => rw [clear_eq_of_get_none m u p hget]; exact ⟨h1, h2⟩
  | some um =>
    rw [clear_eq_of_get_some m u p um hget]
    by_cases hh : mapHas um p
    · rw [if_pos hh]
      by_cases hemp : (mapDel um p).isEmpty
      · rw [if_pos hemp]
        refine ⟨((mapDel_sublist _ _).map Prod.fst).nodup h1, ?_⟩
        intro e he
        exact h2 e ((mapDel_sublist _ _).subset he)
      · rw [if_neg hemp]
        refine ⟨nodup_keysOf_mapSet _ _ h1, ?_⟩
        intro e he
        rcases mem_mapSet he with hmem | heq
        · exact h2 e hmem
        · rw [heq]
          exact ((mapDel_sublist _ _).map Prod.fst).nodup (h2 _ (mapGet_some_mem hget))
    · rw [if_neg hh]
      exact ⟨h1, h2⟩

theorem nodupKeys_cleanup (m : Memory) (now maxAgeHours : Nat)
    (h : nodupKeys m) : nodupKeys (cleanup m now maxAgeHours).1 := by
  obtain ⟨h1, h2⟩ := h
  rw [cleanup_fst]
  constructor
  · exact nodup_keysOf_cleanupUsers h1
  · intro e he
    obtain ⟨up, hmem, heq⟩ := mem_cleanupUsers he
    rw [heq]
    exact nodup_keysOf_cleanupUser (h2 _ hmem)

/-- The states reachable from a freshly constructed store by any sequence of
mutating operations. -/
inductive Reachable : Memory → Prop where
  | empty : Reachable Memory.empty
  | add (m : Memory) (u p q r : String) (i : Intent) (t : Nat) :
      Reachable m → Reachable (addInteraction m u p q r i t)
  | clear (m : Memory) (u p : String) : Reachable m → Reachable (clear m u p)
  | cleanup (m : Memory) (now maxAgeHours : Nat) :
      Reachable m → Reachable (cleanup m now maxAgeHours).1

theorem reach_nodupKeys {m : Memory} (h : Reachable m) : nodupKeys m := by
  induction h with
  | empty => exact nodupKeys_empty
  | add m u p q r i t _ ih => exact nodupKeys_add m u p q r i t ih
  | clear m u p _ ih => exact nodupKeys_clear m u p ih
  | cleanup m now maxAgeHours _ ih => exact nodupKeys_cleanup m now maxAgeHours ih

theorem reach_log_bounded {m : Memory} (h : Reachable m) :
    ∀ u p pm, lookupPM m u p = some pm →
      pm.interactions.length ≤ maxInteractionsPerUser := by
  induction h with
  | empty =>
    intro u p pm h
    rw [lookupPM_empty] at h
    exact absurd h (by simp)
  | add m0 u p q r i t _ ih =>
    intro u2 p2 pm h
    by_cases he : u2 = u ∧ p2 = p
    · obtain ⟨rfl, rfl⟩ := he
      rw [lookupPM_add_self] at h
      have hpm := Option.some.inj h
      rw [← hpm]
      show (trimCap maxInteractionsPerUser (logOf m0 u2 p2 ++ [mkI m0 q r i t])).length ≤
        maxInteractionsPerUser
      exact trimCap_length_le _ _ (by decide)
    · rw [lookupPM_add_ne m0 u p u2 p2 q r i t he] at h
      exact ih u2 p2 pm h
  | clear m0 u p _ ih =>
    intro u2 p2 pm h
    exact ih u2 p2 pm (lookupPM_clear_le m0 u p u2 p2 pm h)
  | cleanup m0 now maxAgeHours hr ih =>
    intro u2 p2 pm h
    obtain ⟨hn, hn2⟩ := reach_nodupKeys hr
    rw [lookupPM_cleanup m0 now maxAgeHours u2 p2 hn hn2] at h
    cases hl : lookupPM m0 u2 p2 with
    | none =>
      rw [hl] at h
      exact absurd h (by simp)
    | some pm0 =>
      rw [hl] at h
      replace h : (if (keepNewer (cutoffOf now maxAgeHours) pm0.interactions).isEmpty
          then none
          else some (⟨keepNewer (cutoffOf now maxAgeHours) pm0.interactions,
            pm0.context⟩ : PlatformMemory)) = some pm := h
      by_cases hke : (keepNewer (cutoffOf now maxAgeHours) pm0.interactions).isEmpty
      · rw [if_pos hke] at h
        exact absurd h (by simp)
      · rw [if_neg hke] at h
        have hpm := Option.some.inj h
        rw [← hpm]
        show (keepNewer (cutoffOf now maxAgeHours) pm0.interactions).length ≤
          maxInteractionsPerUser
        have hfilter : (keepNewer (cutoffOf now maxAgeHours) pm0.interactions).length ≤
            pm0.interactions.length := List.length_filter_le _ _
        have := ih u2 p2 pm0 hl
        omega

theorem reach_totalInteractions_ge {m : Memory} (h : Reachable m) :
    ∀ u p pm, lookupPM m u p = some pm →
      pm.interactions.length ≤ pm.context.totalInteractions := by
  induction h with
  | empty =>
    intro u p pm h
    rw [lookupPM_empty] at h
    exact absurd h (by simp)
  | add m0 u p q r i t _ ih =>
    intro u2 p2 pm h
    by_cases he : u2 = u ∧ p2 = p
    · obtain ⟨rfl, rfl⟩ := he
      rw [lookupPM_add_self] at h
      have hpm := Option.some.inj h
      rw [← hpm]
      show (trimCap maxInteractionsPerUser (logOf m0 u2 p2 ++ [mkI m0 q r i t])).length ≤
        (updateContext (ctxOf m0 u2 p2) (mkI m0 q r i t)).totalInteractions
      have htrim := trimCap_length_le_self maxInteractionsPerUser
        (logOf m0 u2 p2 ++ [mkI m0 q r i t])
      rw [List.length_append, List.length_singleton] at htrim
      have hbase : (logOf m0 u2 p2).length ≤ (ctxOf m0 u2 p2).totalInteractions := by
        unfold logOf ctxOf
        cases hl : lookupPM m0 u2 p2 with
        | none => simp
        | some pm0 => exact ih u2 p2 pm0 hl
      have hupd : (updateContext (ctxOf m0 u2 p2) (mkI m0 q r i t)).totalInteractions =
          (ctxOf m0 u2 p2).totalInteractions + 1 := rfl
      omega
    · rw [lookupPM_add_ne m0 u p u2 p2 q r i t he] at h
      exact ih u2 p2 pm h
  | clear m0 u p _ ih =>
    intro u2 p2 pm h
    exact ih u2 p2 pm (lookupPM_clear_le m0 u p u2 p2 pm h)
  | cleanup m0 now maxAgeHours hr ih =>
    intro u2 p2 pm h
    obtain ⟨hn, hn2⟩ := reach_nodupKeys hr
    rw [lookupPM_cleanup m0 now maxAgeHours u2 p2 hn hn2] at h
    cases hl : lookupPM m0 u2 p2 with
    | none =>
      rw [hl] at h
      exact absurd h (by simp)
    | some pm0 =>
      rw [hl] at h
      replace h : (if (keepNewer (cutoffOf now maxAgeHours) pm0.interactions).isEmpty
          then none
          else some (⟨keepNewer (cutoffOf now maxAgeHours) pm0.interactions,
            pm0.context⟩ : PlatformMemory)) = some pm := h
      by_cases hke : (keepNewer (cutoffOf now maxAgeHours) pm0.interactions).isEmpty
      · rw [if_pos hke] at h
        exact absurd h (by simp)
      · rw [if_neg hke] at h
        have hpm := Option.some.inj h
        rw [← hpm]
        show (keepNewer (cutoffOf now maxAgeHours) pm0.interactions).length ≤
          pm0.context.totalInteractions
        have hfilter : (keepNewer (cutoffOf now maxAgeHours) pm0.interactions).length ≤
            pm0.interactions.length := List.length_filter_le _ _
        have := ih u2 p2 pm0 hl
        omega

/-- The total number of interactions stored in one user entry. -/
def platTotal (um : List (String × PlatformMemory)) : Nat :=
  (um.map (fun pp => pp.2.interactions.length)).sum

/-- The total number of interactions stored anywhere in the store. -/
def totalLogged (m : Memory) : Nat :=
  (m.memory.map (fun up => platTotal up.2)).sum

theorem cleanupUser_count (c : Int) (um : List (String × PlatformMemory)) :
    (cleanupUser c um).2 + platTotal (cleanupUser c um).1 = platTotal um := by
  induction um with
  | nil => rfl
  | cons pp ps ih =>
    rw [cleanupUser_fst_cons, cleanupUser_snd_cons]
    have hle : (keepNewer c pp.2.interactions).length ≤ pp.2.interactions.length :=
      List.length_filter_le _ _
    have hps : platTotal (pp :: ps) = pp.2.interactions.length + platTotal ps := by
      simp [platTotal]
    by_cases he : (keepNewer c pp.2.interactions).isEmpty
    · rw [if_pos he]
      have h0 : (keepNewer c pp.2.interactions).length = 0 := by
        rw [List.isEmpty_iff] at he
        rw [he]
        rfl
      omega
    · rw [if_neg he]
      have hcons : platTotal ((pp.1,
          (⟨keepNewer c pp.2.interactions, pp.2.context⟩ : PlatformMemory)) ::
          (cleanupUser c ps).1) =
          (keepNewer c pp.2.interactions).length + platTotal (cleanupUser c ps).1 := by
        simp [platTotal]
      omega

theorem cleanupUsers_count (c : Int)
    (us : List (String × List (String × PlatformMemory))) :
    (cleanupUsers c us).2 + ((cleanupUsers c us).1.map (fun up => platTotal up.2)).sum =
      (us.map (fun up => platTotal up.2)).sum := by
  induction us with
  | nil => rfl
  | cons up rest ih =>
    rw [cleanupUsers_fst_cons, cleanupUsers_snd_cons]
    have huser := cleanupUser_count c up.2
    by_cases he : (cleanupUser c up.2).1.isEmpty
    · rw [if_pos he]
      have h0 : platTotal (cleanupUser c up.2).1 = 0 := by
        rw [List.isEmpty_iff] at he
        rw [he]
        rfl
      simp only [List.map_cons, List.sum_cons]
      omega
    · rw [if_neg he]
      simp only [List.map_cons, List.sum_cons]
      omega

theorem cleanup_count (m : Memory) (now maxAgeHours : Nat) :
    (cleanup m now maxAgeHours).2 + totalLogged (cleanup m now maxAgeHours).1 =
      totalLogged m := by
  rw [cleanup_fst, cleanup_snd]
  show (cleanupUsers (cutoffOf now maxAgeHours) m.memory).2 +
      ((cleanupUsers (cutoffOf now maxAgeHours) m.memory).1.map
        (fun up => platTotal up.2)).sum =
    (m.memory.map (fun up => platTotal up.2)).sum
  exact cleanupUsers_count _ _

theorem cleanup_fixes_context (m : Memory) (now maxAgeHours : Nat) (u p : String)
    (hn : (keysOf m.memory).Nodup) (hn2 : ∀ e ∈ m.memory, (keysOf e.2).Nodup) :
    ctxOf (cleanup m now maxAgeHours).1 u p = ctxOf m u p ∨
      lookupPM (cleanup m now maxAgeHours).1 u p = none := by
  unfold ctxOf
  rw [lookupPM_cleanup m now maxAgeHours u p hn hn2]
  cases hl : lookupPM m u p with
  | none => exact Or.inr rfl
  | some pm =>
    by_cases hke : (keepNewer (cutoffOf now maxAgeHours) pm.interactions).isEmpty
    · right
      show (if (keepNewer (cutoffOf now maxAgeHours) pm.interactions).isEmpty then none
        else some (⟨keepNewer (cutoffOf now maxAgeHours) pm.interactions,
          pm.context⟩ : PlatformMemory)) = none
      rw [if_pos hke]
    · left
      show (match (if (keepNewer (cutoffOf now maxAgeHours) pm.interactions).isEmpty
            then none
            else some (⟨keepNewer (cutoffOf now maxAgeHours) pm.interactions,
              pm.context⟩ : PlatformMemory)) with
          | none => Ctx.empty
          | some pm2 => pm2.context) = pm.context
      rw [if_neg hke]

end Nested

/-! ## Lemmas about the stable descending sort and the count maps -/

theorem sortByCountDesc_sorted (l : List (String × Nat)) :
    (sortByCountDesc l).Sorted byCountDesc :=
  List.sorted_insertionSort byCountDesc l

theorem sortByCountDesc_perm (l : List (String × Nat)) :
    (sortByCountDesc l).Perm l :=
  List.perm_insertionSort byCountDesc l

theorem sortByCountDesc_of_const (l : List (String × Nat)) (c : Nat)
    (h : ∀ x ∈ l, x.2 = c) : sortByCountDesc l = l := by
  induction l with
  | nil => rfl
  | cons a as ih =>
    have tail : sortByCountDesc as = as :=
      ih (fun x hx => h x (List.mem_cons_of_mem _ hx))
    unfold sortByCountDesc at tail ⊢
    rw [List.insertionSort, tail]
    cases as with
    | nil => rfl
    | cons b bs =>
      rw [List.orderedInsert, if_pos]
      show b.2 ≤ a.2
      rw [h a (List.mem_cons_self _ _), h b (List.mem_cons_of_mem _ (List.mem_cons_self _ _))]

theorem mapGet_bump_self (m : List (String × Nat)) (k : String) :
    mapGet (bump m k) k = some ((mapGet m k).getD 0 + 1) := by
  unfold bump
  exact mapGet_set_self _ _ _

theorem mapGet_bump_ne {k k2 : String} (h : k2 ≠ k) (m : List (String × Nat)) :
    mapGet (bump m k) k2 = mapGet m k2 := by
  unfold bump
  exact mapGet_set_ne h _ _

theorem foldl_bump_count (ts : List String) (m : List (String × Nat)) (T : String) :
    (mapGet (ts.foldl bump m) T).getD 0 = (mapGet m T).getD 0 + ts.count T := by
  induction ts generalizing m with
  | nil => simp
  | cons t ts ih =>
    rw [List.foldl_cons, ih]
    by_cases ht : t = T
    · subst ht
      rw [mapGet_bump_self]
      simp only [List.count_cons, Option.getD_some]
      simp
      omega
    · rw [mapGet_bump_ne (fun hh => ht hh.symm)]
      have hbeq : (T == t) = false := by
        rw [beq_eq_false_iff_ne]
        exact fun hh => ht hh.symm
      simp [List.count_cons, hbeq]
      exact ht

/-! ## Lemmas about the flat-map operations and its string key -/

namespace Flat

/-- The interaction record the flat-map `addInteraction` constructs. -/
def mkI (q r : String) (i : Intent) (t : Nat) : Interaction :=
  ⟨t, q, r, i, q.length, r.length⟩

/-- Observation: the historical counter of a key (0 when absent, matching
the initial value of a fresh entry). -/
def metaTotalOf (m : Memory) (userId platform : String) : Nat :=
  match mapGet m.conversations (getMemoryKey userId platform) with
  | none => 0
  | some c => c.metadata.totalInteractions

theorem logOf_add_flat (m : Memory) (u p q r : String) (i : Intent) (t : Nat) :
    logOf (addInteraction m u p q r i t) u p =
      trimCap maxHistoryPerUser (logOf m u p ++ [mkI q r i t]) := by
  unfold addInteraction logOf mkI trimCap
  cases h1 : mapGet m.conversations (getMemoryKey u p) with
  | none => simp [h1, mapGet_set_self]
  | some conv => simp [h1, mapGet_set_self]

theorem metaTotalOf_add_self (m : Memory) (u p q r : String) (i : Intent) (t : Nat) :
    metaTotalOf (addInteraction m u p q r i t) u p = metaTotalOf m u p + 1 := by
  unfold addInteraction metaTotalOf
  cases h1 : mapGet m.conversations (getMemoryKey u p) with
  | none => simp [h1, mapGet_set_self]
  | some conv => simp [h1, mapGet_set_self]

theorem mapGet_add_ne (m : Memory) (u p q r : String) (i : Intent) (t : Nat)
    (key2 : String) (h : key2 ≠ getMemoryKey u p) :
    mapGet (addInteraction m u p q r i t).conversations key2 =
      mapGet m.conversations key2 := by
  unfold addInteraction
  exact mapGet_set_ne h _ _

theorem getHistory_congr_flat {m m2 : Memory} {u p u2 p2 : String}
    (h : mapGet m.conversations (getMemoryKey u p) =
      mapGet m2.conversations (getMemoryKey u2 p2)) (limit : Nat) :
    getHistory m u p limit = getHistory m2 u2 p2 limit := by
  unfold getHistory
  rw [h]

theorem getContext_congr_flat {m m2 : Memory} {u p u2 p2 : String}
    (h : mapGet m.conversations (getMemoryKey u p) =
      mapGet m2.conversations (getMemoryKey u2 p2)) (limit : Nat) :
    getContext m u p limit = getContext m2 u2 p2 limit := by
  unfold getContext
  rw [h]

theorem getHistory_sliceLast_flat (m : Memory) (u p : String) (limit : Nat) :
    getHistory m u p limit = sliceLast (logOf m u p) limit := by
  unfold getHistory logOf
  cases h1 : mapGet m.conversations (getMemoryKey u p) with
  | none =>
    show ([] : List Interaction) = sliceLast [] limit
    unfold sliceLast
    by_cases h0 : limit = 0
    · rw [if_pos h0]
    · rw [if_neg h0, List.drop_nil]
  | some conv => rfl

theorem clear_snd (m : Memory) (u p : String) :
    (clear m u p).2 = mapHas m.conversations (getMemoryKey u p) := rfl

theorem clear_fst (m : Memory) (u p : String) :
    (clear m u p).1 = ⟨mapDel m.conversations (getMemoryKey u p)⟩ := rfl

theorem clear_idem_flat (m : Memory) (u p : String) :
    clear (clear m u p).1 u p = ((clear m u p).1, false) := by
  show (((⟨mapDel (mapDel m.conversations (getMemoryKey u p)) (getMemoryKey u p)⟩ :
        Memory),
      mapHas (mapDel m.conversations (getMemoryKey u p)) (getMemoryKey u p)) :
        Memory × Bool) =
    ((⟨mapDel m.conversations (getMemoryKey u p)⟩ : Memory), false)
  rw [mapDel_del, mapHas_del_self]

end Flat

/-- Splitting a character list at a separator occurring in neither part is
unambiguous. -/
theorem colon_split (a : List Char) : ∀ (b x y : List Char), ':' ∉ a → ':' ∉ b →
    a ++ ':' :: x = b ++ ':' :: y → a = b ∧ x = y := by
  induction a with
  | nil =>
    intro b x y _ hb h
    cases b with
    | nil =>
      simp only [List.nil_append] at h
      exact ⟨rfl, (List.cons.inj h).2⟩
    | cons c bs =>
      simp only [List.nil_append, List.cons_append] at h
      have hc : c = ':' := ((List.cons.inj h).1).symm
      exact absurd (hc ▸ List.mem_cons_self c bs) hb
  | cons c as ih =>
    intro b x y ha hb h
    cases b with
    | nil =>
      simp only [List.nil_append, List.cons_append] at h
      have hc : c = ':' := (List.cons.inj h).1
      exact absurd (hc ▸ List.mem_cons_self c as) ha
    | cons d bs =>
      simp only [List.cons_append] at h
      obtain ⟨hcd, htail⟩ := List.cons.inj h
      have ha2 : ':' ∉ as := fun hm => ha (List.mem_cons_of_mem _ hm)
      have hb2 : ':' ∉ bs := fun hm => hb (List.mem_cons_of_mem _ hm)
      obtain ⟨hab, hxy⟩ := ih bs x y ha2 hb2 htail
      exact ⟨by rw [hcd, hab], hxy⟩

theorem strAppend_data (s t : String) : (s ++ t).data = s.data ++ t.data := by
  cases s
  cases t
  rfl

theorem string_eq_of_data {s t : String} (h : s.data = t.data) : s = t := by
  cases s
  cases t
  exact congrArg String.mk h

/-- With colon-free platforms (in particular the channel enum values), the
flat-map key `userId + ":" + platform` is injective on (userId, platform)
pairs. -/
theorem getMemoryKey_inj (u1 p1 u2 p2 : String)
    (h1 : ':' ∉ p1.data) (h2 : ':' ∉ p2.data)
    (h : Flat.getMemoryKey u1 p1 = Flat.getMemoryKey u2 p2) :
    u1 = u2 ∧ p1 = p2 := by
  have hd := congrArg String.data h
  unfold Flat.getMemoryKey at hd
  rw [strAppend_data, strAppend_data, strAppend_data, strAppend_data] at hd
  have hcolon : (":" : String).data = [':'] := rfl
  rw [hcolon] at hd
  rw [List.append_assoc, List.append_assoc] at hd
  simp only [List.singleton_append] at hd
  have hrev := congrArg List.reverse hd
  rw [List.reverse_append, List.reverse_append, List.reverse_cons, List.reverse_cons,
    List.append_assoc, List.append_assoc] at hrev
  simp only [List.singleton_append] at hrev
  have hp1 : ':' ∉ p1.data.reverse := by simpa [List.mem_reverse] using h1
  have hp2 : ':' ∉ p2.data.reverse := by simpa [List.mem_reverse] using h2
  obtain ⟨hpr, hur⟩ := colon_split p1.data.reverse p2.data.reverse
    u1.data.reverse u2.data.reverse hp1 hp2 hrev
  refine ⟨string_eq_of_data (List.reverse_injective hur),
    string_eq_of_data (List.reverse_injective hpr)⟩

theorem trimCap_of_le {α : Type} {cap : Nat} {l : List α} (h : l.length ≤ cap) :
    trimCap cap l = l := by
  unfold trimCap
  rw [if_neg (by omega)]

theorem Nested.getHistory_eq_sliceLast (m : Nested.Memory) (u p : String) (limit : Nat) :
    Nested.getHistory m u p limit = sliceLast (Nested.logOf m u p) limit := by
  unfold Nested.getHistory Nested.logOf
  cases h1 : Nested.lookupPM m u p with
  | none =>
    show ([] : List Nested.Interaction) = sliceLast [] limit
    unfold sliceLast
    by_cases h0 : limit = 0
    · rw [if_pos h0]
    · rw [if_neg h0, List.drop_nil]
  | some pm => rfl

theorem Flat.isSome_mapGet_add_self (m : Flat.Memory) (u p q r : String)
    (i : Intent) (t : Nat) :
    (mapGet (Flat.addInteraction m u p q r i t).conversations
      (Flat.getMemoryKey u p)).isSome = true := by
  unfold Flat.addInteraction
  show (mapGet (mapSet m.conversations (Flat.getMemoryKey u p) _)
    (Flat.getMemoryKey u p)).isSome = true
  rw [mapGet_set_self]
  rfl

/-! ## One public call, and replaying a call sequence on both implementations -/

/-- The arguments of one `addInteraction` call (for a fixed key). -/
structure Call where
  userQuery : String
  aiResponse : String
  intent : Intent
  timestamp : Nat
deriving DecidableEq, Repr

/-- The observable projection of a call. -/
def callObs (c : Call) : Nat × String × String × Intent :=
  (c.timestamp, c.userQuery, c.aiResponse, c.intent)

/-- The observable fields of a nested-map interaction (everything except the
opaque `id` token). -/
def Nested.obs (i : Nested.Interaction) : Nat × String × String × Intent :=
  (i.timestamp, i.userQuery, i.aiResponse, i.intent)

/-- The observable fields of a flat-map interaction (everything except the
derived length fields). -/
def Flat.obs (i : Flat.Interaction) : Nat × String × String × Intent :=
  (i.timestamp, i.userQuery, i.aiResponse, i.intent)

/-- Replay a call sequence on one key of the nested-map implementation. -/
def foldAddsNested (u p : String) : Nested.Memory → List Call → Nested.Memory
  | m, [] => m
  | m, c :: cs =>
    foldAddsNested u p
      (Nested.addInteraction m u p c.userQuery c.aiResponse c.intent c.timestamp) cs

/-- Replay a call sequence on one key of the flat-map implementation. -/
def foldAddsFlat (u p : String) : Flat.Memory → List Call → Flat.Memory
  | m, [] => m
  | m, c :: cs =>
    foldAddsFlat u p
      (Flat.addInteraction m u p c.userQuery c.aiResponse c.intent c.timestamp) cs

/-- Replay from a fresh nested-map store. -/
def runNested (u p : String) (calls : List Call) : Nested.Memory :=
  foldAddsNested u p Nested.Memory.empty calls

/-- Replay from a fresh flat-map store. -/
def runFlat (u p : String) (calls : List Call) : Flat.Memory :=
  foldAddsFlat u p Flat.Memory.empty calls

theorem obsLog_foldAddsNested (u p : String) (calls : List Call) :
    ∀ m : Nested.Memory,
      (Nested.logOf m u p).length + calls.length ≤ Nested.maxInteractionsPerUser →
      (Nested.logOf (foldAddsNested u p m calls) u p).map Nested.obs =
        (Nested.logOf m u p).map Nested.obs ++ calls.map callObs := by
  induction calls with
  | nil =>
    intro m _
    simp [foldAddsNested]
  | cons c cs ih =>
    intro m h
    rw [List.length_cons] at h
    have hstep : Nested.logOf
        (Nested.addInteraction m u p c.userQuery c.aiResponse c.intent c.timestamp) u p =
        Nested.logOf m u p ++ [Nested.mkI m c.userQuery c.aiResponse c.intent c.timestamp] := by
      rw [Nested.logOf_add_self]
      exact trimCap_of_le (by rw [List.length_append, List.length_singleton]; omega)
    have hlen : (Nested.logOf
        (Nested.addInteraction m u p c.userQuery c.aiResponse c.intent c.timestamp) u p).length +
        cs.length ≤ Nested.maxInteractionsPerUser := by
      rw [hstep, List.length_append, List.length_singleton]
      omega
    show (Nested.logOf (foldAddsNested u p _ cs) u p).map Nested.obs = _
    rw [ih _ hlen, hstep]
    simp [Nested.obs, Nested.mkI, callObs]

theorem obsLog_foldAddsFlat (u p : String) (calls : List Call) :
    ∀ m : Flat.Memory,
      (Flat.logOf m u p).length + calls.length ≤ Flat.maxHistoryPerUser →
      (Flat.logOf (foldAddsFlat u p m calls) u p).map Flat.obs =
        (Flat.logOf m u p).map Flat.obs ++ calls.map callObs := by
  induction calls with
  | nil =>
    intro m _
    simp [foldAddsFlat]
  | cons c cs ih =>
    intro m h
    rw [List.length_cons] at h
    have hstep : Flat.logOf
        (Flat.addInteraction m u p c.userQuery c.aiResponse c.intent c.timestamp) u p =
        Flat.logOf m u p ++ [Flat.mkI c.userQuery c.aiResponse c.intent c.timestamp] := by
      rw [Flat.logOf_add_flat]
      exact trimCap_of_le (by rw [List.length_append, List.length_singleton]; omega)
    have hlen : (Flat.logOf
        (Flat.addInteraction m u p c.userQuery c.aiResponse c.intent c.timestamp) u p).length +
        cs.length ≤ Flat.maxHistoryPerUser := by
      rw [hstep, List.length_append, List.length_singleton]
      omega
    show (Flat.logOf (foldAddsFlat u p _ cs) u p).map Flat.obs = _
    rw [ih _ hlen, hstep]
    simp [Flat.obs, Flat.mkI, callObs]

/-! ## Concrete scenario states used by the claims -/

/-- 55 appends (cap + 5 for the nested-map cap of 50) to one key, with the
millisecond clock ticking 0, 1, ..., 54. -/
def s55 : Nested.Memory :=
  (List.range 55).foldl
    (fun m t => Nested.addInteraction m "u1" "web" "" "" noIntent t)
    Nested.Memory.empty

/-- 25 appends (cap + 5 for the flat-map cap of 20) to one key. -/
def f25 : Flat.Memory :=
  (List.range 25).foldl
    (fun m t => Flat.addInteraction m "u1" "web" "" "" noIntent t)
    Flat.Memory.empty

/-- One append to a fresh nested-map store. -/
def s1 : Nested.Memory :=
  Nested.addInteraction Nested.Memory.empty "u1" "web" "q" "r" noIntent 0

/-- The platform entry of `s1`'s single key. -/
def pm1 : Nested.PlatformMemory :=
  (Nested.lookupPM s1 "u1" "web").getD Nested.PlatformMemory.empty

/-- Two appends whose queries each contain exactly one topic: "wallet"
first (t = 0), then "market" (t = 1); both topics end up with count 1. -/
def sTie : Nested.Memory :=
  Nested.addInteraction
    (Nested.addInteraction Nested.Memory.empty "u1" "web" "wallet" "" noIntent 0)
    "u1" "web" "market" "" noIntent 1

/-- One interaction at t = 3600000 ms.  Sweeping at now = 7200000 ms with
maxAge one hour puts the cutoff exactly on this timestamp. -/
def sOld : Nested.Memory :=
  Nested.addInteraction Nested.Memory.empty "u1" "web" "" "" noIntent 3600000

/-- 21 appends to one key of the flat-map implementation. -/
def m21f : Flat.Memory :=
  (List.range 21).foldl
    (fun m t => Flat.addInteraction m "u1" "web" "" "" noIntent t)
    Flat.Memory.empty

/-- 21 appends to one key of the nested-map implementation. -/
def m21n : Nested.Memory :=
  (List.range 21).foldl
    (fun m t => Nested.addInteraction m "u1" "web" "" "" noIntent t)
    Nested.Memory.empty

/-- A two-call sequence used to exercise the partial-equivalence theorem. -/
def calls2 : List Call :=
  [⟨"a", "b", noIntent, 0⟩, ⟨"c", "d", noIntent, 1⟩]

/-- The channel enum of the specification. -/
def channelEnum : List String := ["web", "discord", "telegram"]

/-! ## The claims -/

/-- Claim C1: after any `addInteraction` completes, the appended key's log
holds at most the configured cap of interactions (nested-map cap 50,
flat-map cap 20); concretely, after appending cap + 5 interactions to one
key, `getHistory(k, cap + 10)` returns exactly cap interactions and they are
the most recent cap in chronological order (timestamps 5..54, resp. 5..24). -/
theorem C1_log_bounded :
    (∀ (m : Nested.Memory) (u p q r : String) (i : Intent) (t : Nat),
      (Nested.logOf (Nested.addInteraction m u p q r i t) u p).length ≤
        Nested.maxInteractionsPerUser) ∧
    (∀ m : Nested.Memory, Nested.Reachable m → ∀ (u p : String)
      (pm : Nested.PlatformMemory), Nested.lookupPM m u p = some pm →
        pm.interactions.length ≤ Nested.maxInteractionsPerUser) ∧
    (Nested.getHistory s55 "u1" "web" 60).map Nested.Interaction.timestamp =
      (List.range 55).drop 5 ∧
    (Nested.getHistory s55 "u1" "web" 60).length = 50 ∧
    (∀ (m : Flat.Memory) (u p q r : String) (i : Intent) (t : Nat),
      (Flat.logOf (Flat.addInteraction m u p q r i t) u p).length ≤
        Flat.maxHistoryPerUser) ∧
    (Flat.getHistory f25 "u1" "web" 30).map Flat.Interaction.timestamp =
      (List.range 25).drop 5 ∧
    (Flat.getHistory f25 "u1" "web" 30).length = 20 := by
  refine ⟨?_, ?_, by decide, by decide, ?_, by decide, by decide⟩
  · intro m u p q r i t
    rw [Nested.logOf_add_self]
    exact trimCap_length_le _ _ (by decide)
  · intro m hr
    exact Nested.reach_log_bounded hr
  · intro m u p q r i t
    rw [Flat.logOf_add_flat]
    exact trimCap_length_le _ _ (by decide)

/-- Witness for C1 at a concrete reachable one-append store. -/
theorem C1_log_bounded_witness :
    Nested.Reachable s1 ∧ Nested.lookupPM s1 "u1" "web" = some pm1 ∧
      pm1.interactions.length ≤ Nested.maxInteractionsPerUser := by
  have hr : Nested.Reachable s1 :=
    Nested.Reachable.add _ _ _ _ _ _ _ Nested.Reachable.empty
  have hl : Nested.lookupPM s1 "u1" "web" = some pm1 := by decide
  exact ⟨hr, hl, C1_log_bounded.2.1 s1 hr "u1" "web" pm1 hl⟩

/-- Claim C2: `totalInteractions` counts every append ever performed on the
key (each `addInteraction` increments it by exactly one, in both
implementations), it is never decreased by log truncation — after 55 = cap+5
appends `getContext` still reports 55 while the log holds only 50 — and on
every reachable store `totalInteractions >= interactions.length` holds for
every key. -/
theorem C2_total_counter :
    (∀ (m : Nested.Memory) (u p q r : String) (i : Intent) (t : Nat),
      (Nested.ctxOf (Nested.addInteraction m u p q r i t) u p).totalInteractions =
        (Nested.ctxOf m u p).totalInteractions + 1) ∧
    (∀ m : Nested.Memory, Nested.Reachable m → ∀ (u p : String)
      (pm : Nested.PlatformMemory), Nested.lookupPM m u p = some pm →
        pm.interactions.length ≤ pm.context.totalInteractions) ∧
    (∀ (m : Flat.Memory) (u p q r : String) (i : Intent) (t : Nat),
      Flat.metaTotalOf (Flat.addInteraction m u p q r i t) u p =
        Flat.metaTotalOf m u p + 1) ∧
    (Nested.getContext s55 "u1" "web").totalInteractions = 55 ∧
    (Nested.logOf s55 "u1" "web").length = 50 := by
  refine ⟨?_, ?_, ?_, by decide, by decide⟩
  · intro m u p q r i t
    rw [Nested.ctxOf_add_self]
    rfl
  · intro m hr
    exact Nested.reach_totalInteractions_ge hr
  · intro m u p q r i t
    exact Flat.metaTotalOf_add_self m u p q r i t

/-- Witness for C2 at a concrete reachable one-append store. -/
theorem C2_total_counter_witness :
    Nested.Reachable s1 ∧ Nested.lookupPM s1 "u1" "web" = some pm1 ∧
      pm1.interactions.length ≤ pm1.context.totalInteractions := by
  have hr : Nested.Reachable s1 :=
    Nested.Reachable.add _ _ _ _ _ _ _ Nested.Reachable.empty
  have hl : Nested.lookupPM s1 "u1" "web" = some pm1 := by decide
  exact ⟨hr, hl, C2_total_counter.2.1 s1 hr "u1" "web" pm1 hl⟩

/-- Claim C3: immediately after `addInteraction(k, q, r, i)` on the
nested-map implementation, `getHistory(k, 1)` returns exactly one
interaction carrying `q`, `r` and `i` verbatim. -/
theorem C3_round_trip :
    ∀ (m : Nested.Memory) (u p q r : String) (i : Intent) (t : Nat),
      ∃ x : Nested.Interaction,
        Nested.getHistory (Nested.addInteraction m u p q r i t) u p 1 = [x] ∧
        x.userQuery = q ∧ x.aiResponse = r ∧ x.intent = i := by
  intro m u p q r i t
  refine ⟨Nested.mkI m q r i t, ?_, rfl, rfl, rfl⟩
  rw [Nested.getHistory_eq_sliceLast, Nested.logOf_add_self]
  exact sliceLast_trimCap_append_one _ _ _ (by decide)

/-- Claim C4: for a key never appended to (or cleared), `getContext` returns
the zeroed `hasHistory = false` object and `getHistory` returns the empty
sequence, in both implementations; clearing always leaves the key absent.
Both operations are total Lean functions, mirroring that the JavaScript
methods never throw for unknown keys. -/
theorem C4_unknown_key :
    (∀ (m : Nested.Memory) (u p : String) (limit : Nat),
      Nested.lookupPM m u p = none →
        Nested.getContext m u p = Nested.emptyContextResult ∧
        Nested.getHistory m u p limit = []) ∧
    (∀ (m : Nested.Memory) (u p : String),
      Nested.lookupPM (Nested.clear m u p) u p = none) ∧
    (∀ (m : Flat.Memory) (u p : String) (limit : Nat),
      mapGet m.conversations (Flat.getMemoryKey u p) = none →
        Flat.getContext m u p limit = Flat.emptyContext ∧
        Flat.getHistory m u p limit = []) ∧
    Nested.getContext Nested.Memory.empty "ghost" "web" = Nested.emptyContextResult ∧
    Nested.getHistory Nested.Memory.empty "ghost" "web" 10 = [] := by
  refine ⟨?_, ?_, ?_, by decide, by decide⟩
  · intro m u p limit h
    constructor
    · unfold Nested.getContext
      rw [h]
    · unfold Nested.getHistory
      rw [h]
  · intro m u p
    exact Nested.lookupPM_clear_self m u p
  · intro m u p limit h
    constructor
    · unfold Flat.getContext
      rw [h]
    · unfold Flat.getHistory
      rw [h]

/-- Witness for C4 at a fresh store and an unknown key. -/
theorem C4_unknown_key_witness :
    Nested.lookupPM Nested.Memory.empty "ghost" "web" = none ∧
    Nested.getContext Nested.Memory.empty "ghost" "web" = Nested.emptyContextResult ∧
    Nested.getHistory Nested.Memory.empty "ghost" "web" 10 = [] ∧
    mapGet Flat.Memory.empty.conversations (Flat.getMemoryKey "ghost" "web") = none ∧
    Flat.getContext Flat.Memory.empty "ghost" "web" 5 = Flat.emptyContext := by
  have h1 : Nested.lookupPM Nested.Memory.empty "ghost" "web" = none := rfl
  have h2 : mapGet Flat.Memory.empty.conversations (Flat.getMemoryKey "ghost" "web") =
      none := rfl
  obtain ⟨hc, hh⟩ := C4_unknown_key.1 Nested.Memory.empty "ghost" "web" 10 h1
  obtain ⟨hcf, _⟩ := C4_unknown_key.2.2.1 Flat.Memory.empty "ghost" "web" 5 h2
  exact ⟨h1, hc, hh, h2, hcf⟩

/-- Claim C5, counterexample to the stated tie-breaking rule.  In `sTie` the
topics "wallet" (seen at t = 0) and "market" (seen at t = 1) both have
count 1.  Most-recently-seen-first tie-breaking would return
["market", "wallet"], but a JavaScript `Map` keeps a re-set key at its
original position and the stable sort preserves that order, so the code
returns them in first-seen order ["wallet", "market"]. -/
theorem C5_tie_counterexample :
    (Nested.getContext sTie "u1" "web").commonTopics = ["wallet", "market"] ∧
    (Nested.getContext sTie "u1" "web").commonTopics ≠ ["market", "wallet"] := by
  exact ⟨by decide, by decide⟩

/-- Claim C5 as amended: `getContext` returns `commonTopics` sorted by
descending accumulated frequency with ties broken by FIRST-seen (map
insertion) order, capped at 5, and `preferredAnalysisTypes` by the same rule
capped at 3; the accumulated count of a topic grows by its number of
occurrences in each append's extracted topics, so a topic appearing in more
queries ranks with a count at least that of any topic appearing in fewer. -/
theorem C5_top_topics :
    (∀ (m : Nested.Memory) (u p : String),
      ∃ l : List (String × Nat),
        l.Perm (Nested.ctxOf m u p).commonTopics ∧
        l.Sorted byCountDesc ∧
        (Nested.getContext m u p).commonTopics = (l.take 5).map Prod.fst) ∧
    (∀ (m : Nested.Memory) (u p : String),
      ∃ l : List (String × Nat),
        l.Perm (Nested.ctxOf m u p).preferredAnalysisTypes ∧
        l.Sorted byCountDesc ∧
        (Nested.getContext m u p).preferredAnalysisTypes = (l.take 3).map Prod.fst) ∧
    (∀ (m : Nested.Memory) (u p : String),
      (Nested.getContext m u p).commonTopics.length ≤ 5 ∧
      (Nested.getContext m u p).preferredAnalysisTypes.length ≤ 3) ∧
    (∀ (l : List (String × Nat)) (c : Nat),
      (∀ x ∈ l, x.2 = c) → sortByCountDesc l = l) ∧
    (∀ (ctx : Nested.Ctx) (i : Nested.Interaction) (T : String),
      (mapGet (Nested.updateContext ctx i).commonTopics T).getD 0 =
        (mapGet ctx.commonTopics T).getD 0 +
          (Nested.extractTopics i.userQuery).count T) ∧
    (Nested.getContext sTie "u1" "web").commonTopics = ["wallet", "market"] := by
  refine ⟨?_, ?_, ?_, sortByCountDesc_of_const, ?_, by decide⟩
  · intro m u p
    cases hl : Nested.lookupPM m u p with
    | none =>
      refine ⟨[], ?_, List.sorted_nil, ?_⟩
      · unfold Nested.ctxOf
        rw [hl]
        exact List.Perm.nil
      · unfold Nested.getContext
        rw [hl]
        rfl
    | some pm =>
      refine ⟨sortByCountDesc pm.context.commonTopics, ?_, sortByCountDesc_sorted _, ?_⟩
      · unfold Nested.ctxOf
        rw [hl]
        exact sortByCountDesc_perm _
      · unfold Nested.getContext
        rw [hl]
  · intro m u p
    cases hl : Nested.lookupPM m u p with
    | none =>
      refine ⟨[], ?_, List.sorted_nil, ?_⟩
      · unfold Nested.ctxOf
        rw [hl]
        exact List.Perm.nil
      · unfold Nested.getContext
        rw [hl]
        rfl
    | some pm =>
      refine ⟨sortByCountDesc pm.context.preferredAnalysisTypes, ?_,
        sortByCountDesc_sorted _, ?_⟩
      · unfold Nested.ctxOf
        rw [hl]
        exact sortByCountDesc_perm _
      · unfold Nested.getContext
        rw [hl]
  · intro m u p
    unfold Nested.getContext
    cases hl : Nested.lookupPM m u p with
    | none => exact ⟨by decide, by decide⟩
    | some pm =>
      constructor
      · show (((sortByCountDesc pm.context.commonTopics).take 5).map Prod.fst).length ≤ 5
        rw [List.length_map]
        exact List.length_take_le _ _
      · show (((sortByCountDesc pm.context.preferredAnalysisTypes).take 3).map
          Prod.fst).length ≤ 3
        rw [List.length_map]
        exact List.length_take_le _ _
  · intro ctx i T
    show (mapGet ((Nested.extractTopics i.userQuery).foldl bump ctx.commonTopics) T).getD 0 = _
    exact foldl_bump_count _ _ _

/-- Witness for C5 (the tie-stability conjunct) at a concrete two-entry tie. -/
theorem C5_top_topics_witness :
    sortByCountDesc [("a", 1), ("b", 1)] = [("a", 1), ("b", 1)] :=
  C5_top_topics.2.2.2.1 [("a", 1), ("b", 1)] 1 (by decide)

/-- Claim C6: `updateRiskTolerance` scores the conservative-signal and
aggressive-signal keyword sets over the query; a strict conservative win
sets "conservative", a strict aggressive win sets "aggressive", a tie leaves
the estimate unchanged unless it is still "unknown", which becomes
"moderate"; a classified estimate never decays back to "unknown"; and every
`addInteraction` applies exactly this update to the key's estimate. -/
theorem C6_risk_tolerance :
    (∀ (rt q : String), Nested.countTerms Nested.riskAverseTerms q >
        Nested.countTerms Nested.riskSeekingTerms q →
      Nested.updateRiskTolerance rt q = "conservative") ∧
    (∀ (rt q : String), Nested.countTerms Nested.riskSeekingTerms q >
        Nested.countTerms Nested.riskAverseTerms q →
      Nested.updateRiskTolerance rt q = "aggressive") ∧
    (∀ q : String, Nested.countTerms Nested.riskAverseTerms q =
        Nested.countTerms Nested.riskSeekingTerms q →
      Nested.updateRiskTolerance "unknown" q = "moderate") ∧
    (∀ (rt q : String), Nested.countTerms Nested.riskAverseTerms q =
        Nested.countTerms Nested.riskSeekingTerms q → rt ≠ "unknown" →
      Nested.updateRiskTolerance rt q = rt) ∧
    (∀ (rt q : String), rt ≠ "unknown" →
      Nested.updateRiskTolerance rt q ≠ "unknown") ∧
    (∀ (m : Nested.Memory) (u p q r : String) (i : Intent) (t : Nat),
      (Nested.ctxOf (Nested.addInteraction m u p q r i t) u p).riskTolerance =
        Nested.updateRiskTolerance (Nested.ctxOf m u p).riskTolerance q) := by
  refine ⟨?_, ?_, ?_, ?_, ?_, ?_⟩
  · intro rt q h
    unfold Nested.updateRiskTolerance
    rw [if_pos h]
  · intro rt q h
    unfold Nested.updateRiskTolerance
    rw [if_neg (by omega), if_pos h]
  · intro q h
    unfold Nested.updateRiskTolerance
    rw [if_neg (by omega), if_neg (by omega), if_pos rfl]
  · intro rt q h hrt
    unfold Nested.updateRiskTolerance
    rw [if_neg (by omega), if_neg (by omega), if_neg hrt]
  · intro rt q hrt
    unfold Nested.updateRiskTolerance
    by_cases h1 : Nested.countTerms Nested.riskAverseTerms q >
        Nested.countTerms Nested.riskSeekingTerms q
    · rw [if_pos h1]
      decide
    · rw [if_neg h1]
      by_cases h2 : Nested.countTerms Nested.riskSeekingTerms q >
          Nested.countTerms Nested.riskAverseTerms q
      · rw [if_pos h2]
        decide
      · rw [if_neg h2]
        by_cases h3 : rt = "unknown"
        · exact absurd h3 hrt
        · rw [if_neg h3]
          exact hrt
  · intro m u p q r i t
    rw [Nested.ctxOf_add_self]
    rfl

/-- Witness for C6: each hypothesised branch exercised on concrete queries. -/
theorem C6_risk_tolerance_witness :
    Nested.updateRiskTolerance "unknown" "is it safe" = "conservative" ∧
    Nested.updateRiskTolerance "unknown" "a gamble" = "aggressive" ∧
    Nested.updateRiskTolerance "unknown" "hello" = "moderate" ∧
    Nested.updateRiskTolerance "aggressive" "hello" = "aggressive" ∧
    Nested.updateRiskTolerance "moderate" "hello" ≠ "unknown" := by
  refine ⟨C6_risk_tolerance.1 _ _ (by decide),
    C6_risk_tolerance.2.1 _ _ (by decide),
    C6_risk_tolerance.2.2.1 _ (by decide),
    C6_risk_tolerance.2.2.2.1 _ _ (by decide) (by decide),
    C6_risk_tolerance.2.2.2.2.1 _ _ (by decide)⟩

/-- Claim C7, counterexample to the returned boolean.  The nested-map
implementation's `clear` method body contains no return statement, so a call
evaluates to `undefined` — it returns neither `true` after an append
(`s1` holds one interaction for the key) nor `false` for a key with no log. -/
theorem C7_clear_counterexample :
    Nested.clearRet s1 "u1" "web" ≠ some true ∧
    Nested.clearRet Nested.Memory.empty "u1" "web" ≠ some false := by
  exact ⟨by decide, by decide⟩

/-- Claim C7 as amended: both implementations remove the key's log and
derived stats entirely and are idempotent, and a subsequent `getContext`
shows no history; the FLAT-map implementation's `clear` returns the
deletion boolean (false on a key with no log, true after at least one
append), while the nested-map implementation's `clear` performs the same
removal but returns `undefined`. -/
theorem C7_clear :
    (∀ (m : Flat.Memory) (u p : String),
      mapGet m.conversations (Flat.getMemoryKey u p) = none →
        (Flat.clear m u p).2 = false) ∧
    (∀ (m : Flat.Memory) (u p q r : String) (i : Intent) (t : Nat),
      (Flat.clear (Flat.addInteraction m u p q r i t) u p).2 = true) ∧
    (∀ (m : Flat.Memory) (u p : String) (limit : Nat),
      Flat.getContext (Flat.clear m u p).1 u p limit = Flat.emptyContext) ∧
    (∀ (m : Flat.Memory) (u p : String),
      Flat.clear (Flat.clear m u p).1 u p = ((Flat.clear m u p).1, false)) ∧
    (∀ (m : Nested.Memory) (u p : String),
      Nested.lookupPM (Nested.clear m u p) u p = none ∧
      (Nested.getContext (Nested.clear m u p) u p).hasHistory = false ∧
      Nested.clear (Nested.clear m u p) u p = Nested.clear m u p ∧
      Nested.clearRet m u p = none) := by
  refine ⟨?_, ?_, ?_, ?_, ?_⟩
  · intro m u p h
    rw [Flat.clear_snd, mapHas_eq_isSome, h]
    rfl
  · intro m u p q r i t
    rw [Flat.clear_snd, mapHas_eq_isSome]
    exact Flat.isSome_mapGet_add_self m u p q r i t
  · intro m u p limit
    rw [Flat.clear_fst]
    unfold Flat.getContext
    rw [show (⟨mapDel m.conversations (Flat.getMemoryKey u p)⟩ :
      Flat.Memory).conversations = mapDel m.conversations (Flat.getMemoryKey u p)
      from rfl]
    rw [mapGet_del_self]
  · intro m u p
    exact Flat.clear_idem_flat m u p
  · intro m u p
    refine ⟨Nested.lookupPM_clear_self m u p, ?_, Nested.clear_clear m u p, rfl⟩
    unfold Nested.getContext
    rw [Nested.lookupPM_clear_self]
    rfl

/-- Witness for C7 at a fresh flat-map store. -/
theorem C7_clear_witness : (Flat.clear Flat.Memory.empty "u1" "web").2 = false :=
  C7_clear.1 Flat.Memory.empty "u1" "web" rfl

/-- Claim C8, counterexample to "removes exactly the interactions older than
maxAge".  `sOld` holds one interaction at t = 3600000 ms; sweeping at
now = 7200000 ms with one hour maxAge puts the cutoff at exactly 3600000.
The interaction's age equals maxAge — it is not older — yet the filter
`timestamp > cutoff` is strict, so the sweep removes it (returns 1) and
deletes the key. -/
theorem C8_sweep_counterexample :
    (Nested.logOf sOld "u1" "web").map Nested.Interaction.timestamp = [3600000] ∧
    7200000 - 3600000 = 1 * 3600000 ∧
    (Nested.cleanup sOld 7200000 1).2 = 1 ∧
    Nested.lookupPM (Nested.cleanup sOld 7200000 1).1 "u1" "web" = none := by
  exact ⟨by decide, by decide, by decide, by decide⟩

/-- Claim C8 as amended: `cleanup(maxAgeHours)` keeps exactly the
interactions strictly newer than `now - maxAge` (so it removes those aged
`>= maxAge`, including the boundary), leaves the surviving key's context —
in particular `totalInteractions` — untouched, removes a key entirely once
its log becomes empty (so `getContext` then reports no history), and the
returned count plus the interactions left in the store equals the
interactions previously in the store (i.e. it returns exactly the number
removed). -/
theorem C8_sweep :
    (∀ (m : Nested.Memory) (now hrs : Nat) (u p : String),
      Nested.nodupKeys m →
      Nested.lookupPM (Nested.cleanup m now hrs).1 u p =
        (match Nested.lookupPM m u p with
         | none => none
         | some pm =>
           if (Nested.keepNewer (Nested.cutoffOf now hrs) pm.interactions).isEmpty
           then none
           else some ⟨Nested.keepNewer (Nested.cutoffOf now hrs) pm.interactions,
             pm.context⟩)) ∧
    (∀ (l : List Nested.Interaction) (c : Int) (i : Nested.Interaction),
      i ∈ Nested.keepNewer c l ↔ i ∈ l ∧ c < (i.timestamp : Int)) ∧
    (∀ (m : Nested.Memory) (now hrs : Nat),
      (Nested.cleanup m now hrs).2 + Nested.totalLogged (Nested.cleanup m now hrs).1 =
        Nested.totalLogged m) ∧
    (∀ (m : Nested.Memory) (now hrs : Nat) (u p : String),
      Nested.nodupKeys m →
      (Nested.keepNewer (Nested.cutoffOf now hrs) (Nested.logOf m u p)).isEmpty = true →
      (Nested.getContext (Nested.cleanup m now hrs).1 u p).hasHistory = false) := by
  refine ⟨?_, ?_, ?_, ?_⟩
  · intro m now hrs u p hn
    exact Nested.lookupPM_cleanup m now hrs u p hn.1 hn.2
  · intro l c i
    unfold Nested.keepNewer
    rw [List.mem_filter]
    simp
  · intro m now hrs
    exact Nested.cleanup_count m now hrs
  · intro m now hrs u p hn hke
    have hlk := Nested.lookupPM_cleanup m now hrs u p hn.1 hn.2
    unfold Nested.getContext
    cases hl : Nested.lookupPM m u p with
    | none =>
      rw [hl] at hlk
      replace hlk : Nested.lookupPM (Nested.cleanup m now hrs).1 u p = none := hlk
      rw [hlk]
      rfl
    | some pm =>
      rw [hl] at hlk
      have hke2 : (Nested.keepNewer (Nested.cutoffOf now hrs) pm.interactions).isEmpty =
          true := by
        unfold Nested.logOf at hke
        rw [hl] at hke
        exact hke
      replace hlk : Nested.lookupPM (Nested.cleanup m now hrs).1 u p =
          (if (Nested.keepNewer (Nested.cutoffOf now hrs) pm.interactions).isEmpty
           then none
           else some ⟨Nested.keepNewer (Nested.cutoffOf now hrs) pm.interactions,
             pm.context⟩) := hlk
      rw [if_pos hke2] at hlk
      rw [hlk]
      rfl

/-- Witness for C8 at the boundary store `sOld`. -/
theorem C8_sweep_witness :
    Nested.nodupKeys sOld ∧
    (Nested.keepNewer (Nested.cutoffOf 7200000 1) (Nested.logOf sOld "u1" "web")).isEmpty =
      true ∧
    (Nested.getContext (Nested.cleanup sOld 7200000 1).1 "u1" "web").hasHistory = false := by
  have hn : Nested.nodupKeys sOld := ⟨by decide, by decide⟩
  exact ⟨hn, by decide, C8_sweep.2.2.2 sOld 7200000 1 "u1" "web" hn (by decide)⟩

/-- Claim C9: appending to one (userId, platform) key leaves every other
key's `getContext` and `getHistory` observations unchanged — in the
nested-map implementation for arbitrary distinct pairs, and in the flat-map
implementation for distinct pairs whose platforms are drawn from the channel
enum (whose values contain no ':', so the `userId + ":" + platform` key is
injective on such pairs). -/
theorem C9_isolation :
    (∀ (m : Nested.Memory) (u p u2 p2 q r : String) (i : Intent) (t limit : Nat),
      ¬ (u2 = u ∧ p2 = p) →
      Nested.getContext (Nested.addInteraction m u p q r i t) u2 p2 =
        Nested.getContext m u2 p2 ∧
      Nested.getHistory (Nested.addInteraction m u p q r i t) u2 p2 limit =
        Nested.getHistory m u2 p2 limit) ∧
    (∀ (m : Flat.Memory) (u p u2 p2 q r : String) (i : Intent) (t limit : Nat),
      p ∈ channelEnum → p2 ∈ channelEnum → ¬ (u2 = u ∧ p2 = p) →
      Flat.getContext (Flat.addInteraction m u p q r i t) u2 p2 limit =
        Flat.getContext m u2 p2 limit ∧
      Flat.getHistory (Flat.addInteraction m u p q r i t) u2 p2 limit =
        Flat.getHistory m u2 p2 limit) := by
  constructor
  · intro m u p u2 p2 q r i t limit h
    have hlk := Nested.lookupPM_add_ne m u p u2 p2 q r i t h
    exact ⟨Nested.getContext_congr hlk, Nested.getHistory_congr hlk limit⟩
  · intro m u p u2 p2 q r i t limit hp hp2 h
    have hpc : ':' ∉ p.data := by
      simp only [channelEnum, List.mem_cons, List.not_mem_nil, or_false] at hp
      rcases hp with rfl | rfl | rfl <;> decide
    have hpc2 : ':' ∉ p2.data := by
      simp only [channelEnum, List.mem_cons, List.not_mem_nil, or_false] at hp2
      rcases hp2 with rfl | rfl | rfl <;> decide
    have hkey : Flat.getMemoryKey u2 p2 ≠ Flat.getMemoryKey u p := by
      intro hk
      exact h (getMemoryKey_inj u2 p2 u p hpc2 hpc hk)
    have hlk := Flat.mapGet_add_ne m u p q r i t (Flat.getMemoryKey u2 p2) hkey
    exact ⟨Flat.getContext_congr_flat hlk limit, Flat.getHistory_congr_flat hlk limit⟩

/-- Witness for C9: appending to ("u1", "web") leaves ("u1", "telegram") and
("u2", "web") unchanged. -/
theorem C9_isolation_witness :
    Nested.getContext (Nested.addInteraction s1 "u1" "web" "q" "r" noIntent 5)
        "u1" "telegram" =
      Nested.getContext s1 "u1" "telegram" ∧
    Flat.getContext (Flat.addInteraction Flat.Memory.empty "u1" "web" "q" "r" noIntent 0)
        "u2" "web" 5 =
      Flat.getContext Flat.Memory.empty "u2" "web" 5 := by
  refine ⟨(C9_isolation.1 s1 "u1" "web" "u1" "telegram" "q" "r" noIntent 5 5
      (by decide)).1,
    (C9_isolation.2 Flat.Memory.empty "u1" "web" "u2" "web" "q" "r" noIntent 0 5
      (by decide) (by decide) (by decide)).1⟩

/-- Claim C10, counterexample to functional equivalence of the two
implementations.  Their history caps differ (flat-map 20, nested-map 50):
after the same 21 appends to one key, `getHistory(k, 25)` returns 20
interactions under the flat-map implementation but 21 under the nested-map
one, so the same call sequence yields different observable results. -/
theorem C10_equiv_counterexample :
    (Flat.getHistory m21f "u1" "web" 25).length = 20 ∧
    (Nested.getHistory m21n "u1" "web" 25).length = 21 ∧
    (Flat.getHistory m21f "u1" "web" 25).map Flat.obs ≠
      (Nested.getHistory m21n "u1" "web" 25).map Nested.obs := by
  exact ⟨by decide, by decide, by decide⟩

/-- Claim C10 as amended: the two implementations are NOT functionally
equivalent — their caps differ (20 vs 50) and diverge at the 21st append —
but they do agree on the observable interaction sequence for any single-key
call sequence of at most 20 appends: both return exactly the appended
(timestamp, query, response, intent) tuples. -/
theorem C10_partial_equiv :
    (Flat.maxHistoryPerUser = 20 ∧ Nested.maxInteractionsPerUser = 50) ∧
    (∀ (u p : String) (calls : List Call), calls.length ≤ Flat.maxHistoryPerUser →
      (Flat.getHistory (runFlat u p calls) u p Flat.maxHistoryPerUser).map Flat.obs =
        calls.map callObs ∧
      (Nested.getHistory (runNested u p calls) u p Flat.maxHistoryPerUser).map
        Nested.obs = calls.map callObs) := by
  refine ⟨⟨rfl, rfl⟩, ?_⟩
  intro u p calls h
  have hcapF : Flat.maxHistoryPerUser = 20 := rfl
  have hcapN : Nested.maxInteractionsPerUser = 50 := rfl
  have hbaseF : Flat.logOf Flat.Memory.empty u p = [] := rfl
  have hbaseN : Nested.logOf Nested.Memory.empty u p = [] := rfl
  have hF := obsLog_foldAddsFlat u p calls Flat.Memory.empty
    (by rw [hbaseF]; simpa using h)
  have hN := obsLog_foldAddsNested u p calls Nested.Memory.empty
    (by
      rw [hbaseN]
      simp only [List.length_nil]
      omega)
  rw [hbaseF] at hF
  rw [hbaseN] at hN
  simp only [List.map_nil, List.nil_append] at hF hN
  have hlenF : (Flat.logOf (runFlat u p calls) u p).length = calls.length := by
    have := congrArg List.length hF
    simpa using this
  have hlenN : (Nested.logOf (runNested u p calls) u p).length = calls.length := by
    have := congrArg List.length hN
    simpa using this
  constructor
  · rw [Flat.getHistory_sliceLast_flat, sliceLast_of_le (by omega)]
    exact hF
  · rw [Nested.getHistory_eq_sliceLast, sliceLast_of_le (by omega)]
    exact hN

/-- Witness for C10's agreement theorem at a concrete two-call sequence. -/
theorem C10_partial_equiv_witness :
    (Flat.getHistory (runFlat "u1" "web" calls2) "u1" "web"
      Flat.maxHistoryPerUser).map Flat.obs = calls2.map callObs ∧
    (Nested.getHistory (runNested "u1" "web" calls2) "u1" "web"
      Flat.maxHistoryPerUser).map Nested.obs = calls2.map callObs :=
  C10_partial_equiv.2 "u1" "web" calls2 (by decide)

end ConvMem
